import Mathlib

/-!
Verification of the libmount core (mount option strings, mount entries,
mount tables, table parser, mtab lock) against its natural-language
specification.  The definitions below are shallow embeddings of the C
functions in `shlibs/mount/src/optstr.c`, `shlibs/mount/src/fs.c`,
`shlibs/mount/src/tab.c`, `shlibs/mount/src/tab_parse.c` and
`libmount/src/lock.c`.  C strings are modelled as `List Char` (no interior
NUL bytes), `char **` out-parameters become return values, and errno-style
return codes become explicit sum types.
-/

set_option maxRecDepth 10000

/-! ## Option strings: `mnt_optstr_parse_next` (optstr.c, lines 52-111)

The C function scans the buffer once.  Per character `p` it
(1) toggles `open_quote` on `'"'`, (2) skips all other tests while
`open_quote` is set, (3) records the first `'='` as the name/value
separator, (4) stops at an unquoted `','` (`stop = p`) or, when the next
character is NUL, at the end (`stop = p + 1`), and it fails iff
`stop <= start`, which happens exactly when the very first character is an
unquoted `','`.  If the loop consumes the whole string without setting
`stop` (empty input, or the scan is inside an open quote at the last
character) it reports end-of-string (return value 1).

`scanOpt` returns the item text `[start, stop)` together with how the item
was terminated; the quote flag `q` is the `open_quote` state *before* the
current character. -/

inductive ScanOut where
  | atEnd : ScanOut
  | comma (item : List Char) (rest : List Char) : ScanOut
  | last (item : List Char) : ScanOut
deriving DecidableEq, Repr

def scanOpt : List Char → Bool → ScanOut
  | [], _ => .atEnd
  | c :: rest, q =>
    let q' := xor q (c == '"')
    if q' then
      match scanOpt rest q' with
      | .atEnd => .atEnd
      | .comma it rs => .comma (c :: it) rs
      | .last it => .last (c :: it)
    else if c == ',' then .comma [] rest
    else if rest.isEmpty then .last [c]
    else
      match scanOpt rest q' with
      | .atEnd => .atEnd
      | .comma it rs => .comma (c :: it) rs
      | .last it => .last (c :: it)

/-- The name/value separator search of `mnt_optstr_parse_next`: the first
`'='` that is met while not inside a quoted block splits the item into
name and value (`sep` in the C code). -/
def splitEq : List Char → Bool → Option (List Char × List Char)
  | [], _ => none
  | c :: rest, q =>
    let q' := xor q (c == '"')
    if !q' && c == '=' then some ([], rest)
    else (splitEq rest q').map (fun p => (c :: p.1, p.2))

inductive ParseRes where
  | error : ParseRes
  | done : ParseRes
  | next (name : List Char) (value : Option (List Char)) (rest : List Char) : ParseRes
deriving DecidableEq, Repr

/-- Shallow embedding of `mnt_optstr_parse_next` (optstr.c:52).  `.error`
is the C return `-EINVAL` (`stop <= start`), `.done` is the C return `1`
(end of option string), `.next name value rest` is the C success path with
the cursor `*optstr` advanced to `rest` (past the `','` separator when the
item was comma-terminated). -/
def mnt_optstr_parse_next (cs : List Char) : ParseRes :=
  match scanOpt cs false with
  | .atEnd => .done
  | .comma item rest =>
    if item.isEmpty then .error
    else
      match splitEq item false with
      | none => .next item none rest
      | some p => .next p.1 (some p.2) rest
  | .last item =>
    match splitEq item false with
    | none => .next item none []
    | some p => .next p.1 (some p.2) []

/-! ### Decomposition lemmas for the scanner -/

theorem scanOpt_comma_decomp {cs : List Char} {q : Bool} {it rs : List Char}
    (h : scanOpt cs q = .comma it rs) : cs = it ++ ',' :: rs := by
  induction cs generalizing q it rs with
  | nil => simp [scanOpt] at h
  | cons c rest ih =>
    cases hq : xor q (c == '"') with
    | true =>
      simp only [scanOpt, hq, if_true] at h
      cases hsc : scanOpt rest true with
      | atEnd => rw [hsc] at h; simp at h
      | comma it' rs' =>
        rw [hsc] at h
        simp only [ScanOut.comma.injEq] at h
        obtain ⟨h1, h2⟩ := h
        subst h1; subst h2
        simpa using ih hsc
      | last it' => rw [hsc] at h; simp at h
    | false =>
      simp only [scanOpt, hq, Bool.false_eq_true, if_false] at h
      cases hc : c == ',' with
      | true =>
        simp only [hc, if_true, ScanOut.comma.injEq] at h
        obtain ⟨h1, h2⟩ := h
        subst h1; subst h2
        simp [show c = ',' from by simpa using hc]
      | false =>
        simp only [hc, Bool.false_eq_true, if_false] at h
        cases hr : rest.isEmpty with
        | true => simp only [hr, if_true] at h; simp at h
        | false =>
          simp only [hr, Bool.false_eq_true, if_false] at h
          cases hsc : scanOpt rest false with
          | atEnd => rw [hsc] at h; simp at h
          | comma it' rs' =>
            rw [hsc] at h
            simp only [ScanOut.comma.injEq] at h
            obtain ⟨h1, h2⟩ := h
            subst h1; subst h2
            simpa using ih hsc
          | last it' => rw [hsc] at h; simp at h

theorem scanOpt_last_decomp {cs : List Char} {q : Bool} {it : List Char}
    (h : scanOpt cs q = .last it) : cs = it ∧ it ≠ [] := by
  induction cs generalizing q it with
  | nil => simp [scanOpt] at h
  | cons c rest ih =>
    cases hq : xor q (c == '"') with
    | true =>
      simp only [scanOpt, hq, if_true] at h
      cases hsc : scanOpt rest true with
      | atEnd => rw [hsc] at h; simp at h
      | comma it' rs' => rw [hsc] at h; simp at h
      | last it' =>
        rw [hsc] at h
        simp only [ScanOut.last.injEq] at h
        subst h
        obtain ⟨h1, _⟩ := ih hsc
        exact ⟨by rw [h1], by simp⟩
    | false =>
      simp only [scanOpt, hq, Bool.false_eq_true, if_false] at h
      cases hc : c == ',' with
      | true => simp only [hc, if_true] at h; simp at h
      | false =>
        simp only [hc, Bool.false_eq_true, if_false] at h
        cases hr : rest.isEmpty with
        | true =>
          simp only [hr, if_true, ScanOut.last.injEq] at h
          subst h
          exact ⟨by simp [List.isEmpty_iff.mp hr], by simp⟩
        | false =>
          simp only [hr, Bool.false_eq_true, if_false] at h
          cases hsc : scanOpt rest false with
          | atEnd => rw [hsc] at h; simp at h
          | comma it' rs' => rw [hsc] at h; simp at h
          | last it' =>
            rw [hsc] at h
            simp only [ScanOut.last.injEq] at h
            subst h
            obtain ⟨h1, _⟩ := ih hsc
            exact ⟨by rw [h1], by simp⟩

theorem parse_next_rest_lt {cs name rest : List Char} {v : Option (List Char)}
    (h : mnt_optstr_parse_next cs = .next name v rest) : rest.length < cs.length := by
  cases hsc : scanOpt cs false with
  | atEnd =>
    simp only [mnt_optstr_parse_next, hsc] at h
    exact absurd h (by simp)
  | comma it rs =>
    simp only [mnt_optstr_parse_next, hsc] at h
    have hd := scanOpt_comma_decomp hsc
    cases hi : it.isEmpty with
    | true =>
      simp only [hi, if_true] at h
      exact absurd h (by simp)
    | false =>
      simp only [hi, Bool.false_eq_true, if_false] at h
      have hrest : rest = rs := by
        cases hse : splitEq it false with
        | none =>
          rw [hse] at h
          simp only [ParseRes.next.injEq] at h
          exact h.2.2.symm
        | some p =>
          rw [hse] at h
          simp only [ParseRes.next.injEq] at h
          exact h.2.2.symm
      subst hrest
      rw [hd]
      simp only [List.length_append, List.length_cons]
      omega
  | last it =>
    simp only [mnt_optstr_parse_next, hsc] at h
    have hd := scanOpt_last_decomp hsc
    have hrest : rest = [] := by
      cases hse : splitEq it false with
      | none =>
        rw [hse] at h
        simp only [ParseRes.next.injEq] at h
        exact h.2.2.symm
      | some p =>
        rw [hse] at h
        simp only [ParseRes.next.injEq] at h
        exact h.2.2.symm
    subst hrest
    have hne : cs ≠ [] := by rw [hd.1]; exact hd.2
    cases cs with
    | nil => exact absurd rfl hne
    | cons a l => simp

/-! ## Token-level view of option strings

An option string is a comma-separated list of `NAME` / `NAME=VALUE`
items.  `OptItem` is the token-level view used to *state* properties; the
embedded C functions always operate on the flat character list.  A
well-formed item has a non-empty name free of `','`, `'='` and `'"'`, and
a value (when present) free of `','` and `'"'`; this matches the format
the spec describes for unquoted option lists. -/

structure OptItem where
  name : List Char
  value : Option (List Char)
deriving DecidableEq, Repr

def WfItem (t : OptItem) : Prop :=
  t.name ≠ [] ∧ ',' ∉ t.name ∧ '=' ∉ t.name ∧ '"' ∉ t.name ∧
    ∀ v, t.value = some v → (',' ∉ v ∧ '"' ∉ v)

instance (t : OptItem) : Decidable (WfItem t) := by
  unfold WfItem
  cases t.value <;> exact inferInstance

def renderItem (t : OptItem) : List Char :=
  t.name ++ (match t.value with | some v => '=' :: v | none => [])

def renderOpts : List OptItem → List Char
  | [] => []
  | t :: ts => renderItem t ++ (if ts.isEmpty then [] else ',' :: renderOpts ts)

theorem renderItem_ne_nil {t : OptItem} (h : WfItem t) : renderItem t ≠ [] := by
  unfold renderItem
  cases hv : t.value <;> simp [h.1]

theorem renderItem_no_comma {t : OptItem} (h : WfItem t) : ',' ∉ renderItem t := by
  unfold renderItem
  cases hv : t.value with
  | none => simpa using h.2.1
  | some v =>
    simp only [List.mem_append, List.mem_cons]
    push_neg
    exact ⟨h.2.1, by simp, (h.2.2.2.2 v hv).1⟩

theorem renderItem_no_quote {t : OptItem} (h : WfItem t) : '"' ∉ renderItem t := by
  unfold renderItem
  cases hv : t.value with
  | none => simpa using h.2.2.2.1
  | some v =>
    simp only [List.mem_append, List.mem_cons]
    push_neg
    exact ⟨h.2.2.2.1, by simp, (h.2.2.2.2 v hv).2⟩

/-! ### Scanner behaviour on clean (comma- and quote-free) segments -/

theorem scanOpt_clean_comma {cs : List Char} (hcs : ',' ∉ cs) (hq : '"' ∉ cs)
    (r : List Char) : scanOpt (cs ++ ',' :: r) false = .comma cs r := by
  induction cs with
  | nil => simp [scanOpt]
  | cons c rest ih =>
    have hc : (c == ',') = false := by
      simp only [beq_eq_false_iff_ne, ne_eq]
      intro hcc
      exact hcs (by simp [hcc])
    have hcq : (c == '"') = false := by
      simp only [beq_eq_false_iff_ne, ne_eq]
      intro hcc
      exact hq (by simp [hcc])
    have hrest : (rest ++ ',' :: r).isEmpty = false := by
      cases rest <;> simp
    have ih2 := ih (fun hm => hcs (by simp [hm])) (fun hm => hq (by simp [hm]))
    rw [List.cons_append, scanOpt]
    simp only [hcq, Bool.xor_false, Bool.false_eq_true, if_false, hc, hrest, ih2]

theorem scanOpt_clean_last {cs : List Char} (hne : cs ≠ []) (hcs : ',' ∉ cs)
    (hq : '"' ∉ cs) : scanOpt cs false = .last cs := by
  induction cs with
  | nil => exact absurd rfl hne
  | cons c rest ih =>
    have hc : (c == ',') = false := by
      simp only [beq_eq_false_iff_ne, ne_eq]
      intro hcc
      exact hcs (by simp [hcc])
    have hcq : (c == '"') = false := by
      simp only [beq_eq_false_iff_ne, ne_eq]
      intro hcc
      exact hq (by simp [hcc])
    cases rest with
    | nil => simp [scanOpt, hcq, hc]
    | cons c2 rest2 =>
      have ih2 := ih (by simp) (fun hm => hcs (by simp [hm])) (fun hm => hq (by simp [hm]))
      rw [scanOpt]
      simp only [hcq, Bool.xor_false, Bool.false_eq_true, if_false, hc, List.isEmpty_cons, ih2]

theorem splitEq_no_eq {cs : List Char} (h : '=' ∉ cs) (hq : '"' ∉ cs) :
    splitEq cs false = none := by
  induction cs with
  | nil => rfl
  | cons c rest ih =>
    have hc : (c == '=') = false := by
      simp only [beq_eq_false_iff_ne, ne_eq]
      intro hcc
      exact h (by simp [hcc])
    have hcq : (c == '"') = false := by
      simp only [beq_eq_false_iff_ne, ne_eq]
      intro hcc
      exact hq (by simp [hcc])
    simp [splitEq, hcq, hc, ih (fun hm => h (by simp [hm])) (fun hm => hq (by simp [hm]))]

theorem splitEq_first_eq {n : List Char} (hn : '=' ∉ n) (hq : '"' ∉ n)
    (v : List Char) : splitEq (n ++ '=' :: v) false = some (n, v) := by
  induction n with
  | nil => simp [splitEq]
  | cons c rest ih =>
    have hc : (c == '=') = false := by
      simp only [beq_eq_false_iff_ne, ne_eq]
      intro hcc
      exact hn (by simp [hcc])
    have hcq : (c == '"') = false := by
      simp only [beq_eq_false_iff_ne, ne_eq]
      intro hcc
      exact hq (by simp [hcc])
    simp [splitEq, hcq, hc, ih (fun hm => hn (by simp [hm])) (fun hm => hq (by simp [hm]))]

/-- Splitting a rendered well-formed item recovers its name and value. -/
theorem splitEq_renderItem {t : OptItem} (h : WfItem t) :
    splitEq (renderItem t) false =
      (match t.value with | some v => some (t.name, v) | none => none) := by
  unfold renderItem
  cases hv : t.value with
  | none => simpa using splitEq_no_eq h.2.2.1 h.2.2.2.1
  | some v => simpa using splitEq_first_eq h.2.2.1 h.2.2.2.1 v

/-- Round trip: parsing a rendered well-formed token list yields the first
item and leaves exactly the rendering of the remaining items. -/
theorem parse_next_render {t : OptItem} (ts : List OptItem) (ht : WfItem t) :
    mnt_optstr_parse_next (renderOpts (t :: ts)) = .next t.name t.value (renderOpts ts) := by
  have hse := splitEq_renderItem ht
  cases ts with
  | nil =>
    have hsc : scanOpt (renderOpts [t]) false = .last (renderItem t) := by
      have hr : renderOpts [t] = renderItem t := by simp [renderOpts]
      rw [hr]
      exact scanOpt_clean_last (renderItem_ne_nil ht) (renderItem_no_comma ht)
        (renderItem_no_quote ht)
    cases hv : t.value with
    | none =>
      rw [hv] at hse
      simp only [mnt_optstr_parse_next, hsc, hse]
      simp [renderOpts, renderItem, hv]
    | some v =>
      rw [hv] at hse
      simp only [mnt_optstr_parse_next, hsc, hse]
      simp [renderOpts, renderItem, hv]
  | cons t2 ts2 =>
    have hsc : scanOpt (renderOpts (t :: t2 :: ts2)) false =
        .comma (renderItem t) (renderOpts (t2 :: ts2)) := by
      have hr : renderOpts (t :: t2 :: ts2) =
          renderItem t ++ ',' :: renderOpts (t2 :: ts2) := by
        simp [renderOpts]
      rw [hr]
      exact scanOpt_clean_comma (renderItem_no_comma ht) (renderItem_no_quote ht) _
    have hne : (renderItem t).isEmpty = false := by
      cases hh : renderItem t with
      | nil => exact absurd hh (renderItem_ne_nil ht)
      | cons a l => simp
    cases hv : t.value with
    | none =>
      rw [hv] at hse
      simp only [mnt_optstr_parse_next, hsc, hne, Bool.false_eq_true, if_false, hse]
      simp_all [renderItem]
    | some v =>
      rw [hv] at hse
      simp only [mnt_optstr_parse_next, hsc, hne, Bool.false_eq_true, if_false, hse]

/-! ## `mnt_optstr_locate_option`, removal, append, insert, set (optstr.c)

`mnt_optstr_locate_option` (optstr.c:119) repeatedly calls the parser and
returns, for the first item whose name equals `n` (length equality plus
`strncmp`), the byte range of the item: `ol->begin` is the start of the
item, `ol->end` is `optstr - 1` when the character before the advanced
cursor is `','` and `optstr` otherwise, `ol->namesz` is the name length,
and `ol->value`/`ol->valsz` describe the value (`sep + 1`, i.e. begin +
namesz + 1, and its length).  Pointers into the buffer are modelled as
offsets from the start of the string; `off` is the offset of the current
parse cursor. -/

inductive LocRes where
  | error : LocRes
  | notFound : LocRes
  | found (b e namesz : Nat) (val : Option (Nat × Nat)) : LocRes
deriving DecidableEq, Repr

/-- The locate loop, with an explicit fuel argument so that the
definition is structurally recursive (and so evaluates by reduction).
The fuel only needs to exceed the string length — the parser consumes at
least one byte per item — and `locateFrom` supplies `cs.length + 1`;
the `0`-fuel branch is unreachable. -/
def locateGo : Nat → List Char → Nat → List Char → LocRes
  | 0, _, _, _ => .error
  | fuel + 1, cs, off, n =>
    match mnt_optstr_parse_next cs with
    | .error => .error
    | .done => .notFound
    | .next name val rest =>
      let consumed := cs.length - rest.length
      let e := if cs[consumed - 1]? = some ',' then off + consumed - 1 else off + consumed
      if name = n then
        .found off e name.length (val.map fun v => (off + name.length + 1, v.length))
      else locateGo fuel rest (off + consumed) n

def locateFrom (cs : List Char) (off : Nat) (n : List Char) : LocRes :=
  locateGo (cs.length + 1) cs off n

def mnt_optstr_locate_option (cs : List Char) (n : List Char) : LocRes :=
  locateFrom cs 0 n

theorem locateGo_fuel_irrel : ∀ (f1 : Nat), ∀ (f2 : Nat) (cs : List Char), cs.length < f1 →
    cs.length < f2 → ∀ off n, locateGo f1 cs off n = locateGo f2 cs off n := by
  intro f1
  induction f1 with
  | zero =>
    intro f2 cs h1
    omega
  | succ f1 ih =>
    intro f2 cs h1 h2 off n
    cases f2 with
    | zero => omega
    | succ f2 =>
      simp only [locateGo]
      cases hp : mnt_optstr_parse_next cs with
      | error => rfl
      | done => rfl
      | next name val rest =>
        simp only []
        by_cases hname : name = n
        · rw [if_pos hname, if_pos hname]
        · rw [if_neg hname, if_neg hname]
          have hlt := parse_next_rest_lt hp
          exact ih f2 rest (by omega) (by omega) _ n

/-- Shallow embedding of `mnt_optstr_remove_option_at` (optstr.c:298).
The first step widens the range by the trailing `','` when the item
starts the string or follows a `','` and `*end` is `','`; then the tail
is shifted down (`memmove`); finally, if the byte at `begin` is now NUL
and the previous byte is `','`, that trailing comma is cut.  The C code
reads `*(begin - 1)` even when `begin` is the start of the buffer — an
out-of-bounds read; the embedding guards that read with `b ≠ 0` and so
models the out-of-bounds byte as not being a comma. -/
def mnt_optstr_remove_option_at (cs : List Char) (b e : Nat) : List Char :=
  let e' := if (b = 0 ∨ cs[b - 1]? = some ',') ∧ cs[e]? = some ',' then e + 1 else e
  let cs' := cs.take b ++ cs.drop e'
  if b ≠ 0 ∧ cs'.length = b ∧ cs'[b - 1]? = some ',' then cs'.take (b - 1) else cs'

inductive RemoveRes where
  | error : RemoveRes
  | notFound : RemoveRes
  | ok (s : List Char) : RemoveRes
deriving DecidableEq, Repr

/-- Shallow embedding of `mnt_optstr_remove_option` (optstr.c:419):
locate the first item named `n` and cut it out; parse errors and
not-found leave the string unchanged (the C reports `rc`). -/
def mnt_optstr_remove_option (cs : List Char) (n : List Char) : RemoveRes :=
  match mnt_optstr_locate_option cs n with
  | .error => .error
  | .notFound => .notFound
  | .found b e _ _ => .ok (mnt_optstr_remove_option_at cs b e)

/-- Shallow embedding of `__mnt_optstr_append_option` (optstr.c:172): a
`','` is written only when the old string is non-empty, and the `'='`
plus value only when the value size is non-zero (so a `none` value and an
empty value both append a bare `NAME`).  A NULL `*optstr` and an empty
string behave identically (`osz = 0`) and are both modelled by `[]`. -/
def mnt_optstr_append_option (cs : List Char) (n : List Char) (v : Option (List Char)) :
    List Char :=
  let item := n ++ (match v with
    | some vv => if vv.isEmpty then [] else '=' :: vv
    | none => [])
  if cs.isEmpty then item else cs ++ ',' :: item

/-- Shallow embedding of `insert_value` (optstr.c:318): insert `substr`
at `pos`, prepending `'='` unless the byte before `pos` already is
`'='`. -/
def insert_value (cs : List Char) (pos : Nat) (sub : List Char) : List Char :=
  let sep := ¬(pos > 0 ∧ cs[pos - 1]? = some '=')
  cs.take pos ++ (if sep then '=' :: sub else sub) ++ cs.drop pos

inductive SetRes where
  | error (rc : Int) : SetRes
  | ok (s : List Char) : SetRes
deriving DecidableEq, Repr

/-- Shallow embedding of `mnt_optstr_set_option` (optstr.c:372).  Branches
of the C code, in order: locate error is propagated; not-found appends;
a NULL new value removes an existing non-empty `=value`; a new value with
no existing value is inserted after the name; a same-length value
overwrites in place (`memcpy`); otherwise the old `=value` is removed and
the new one inserted at the same position.  When the new value is NULL
and the located item has no (or an empty) value, no branch fires and the
string is returned unchanged (`rc = 0`). -/
def mnt_optstr_set_option (cs : List Char) (n : List Char) (v : Option (List Char)) : SetRes :=
  match mnt_optstr_locate_option cs n with
  | .error => .error (-22)
  | .notFound => .ok (mnt_optstr_append_option cs n v)
  | .found b e ns vo =>
    let nameend := b + ns
    match v, vo with
    | none, some p =>
      if p.2 ≠ 0 then .ok (mnt_optstr_remove_option_at cs nameend e) else .ok cs
    | none, none => .ok cs
    | some vv, none => .ok (insert_value cs nameend vv)
    | some vv, some p =>
      if vv.length = p.2 then .ok (cs.take p.1 ++ vv ++ cs.drop (p.1 + p.2))
      else .ok (insert_value (mnt_optstr_remove_option_at cs nameend e) nameend vv)

/-! ### Token-level specification functions -/

def WfName (n : List Char) : Prop := n ≠ [] ∧ ',' ∉ n ∧ '=' ∉ n ∧ '"' ∉ n

instance (n : List Char) : Decidable (WfName n) := by
  unfold WfName
  exact inferInstance

def removeFirstTok : List OptItem → List Char → Option (List OptItem)
  | [], _ => none
  | t :: ts, n => if t.name = n then some ts else (removeFirstTok ts n).map (t :: ·)

def firstNamed : List OptItem → List Char → Option OptItem
  | [], _ => none
  | t :: ts, n => if t.name = n then some t else firstNamed ts n

def replaceFirstVal : List OptItem → List Char → Option (List Char) → List OptItem
  | [], _, _ => []
  | t :: ts, n, v =>
    if t.name = n then ⟨t.name, v⟩ :: ts else t :: replaceFirstVal ts n v

def countName (ts : List OptItem) (n : List Char) : Nat :=
  ts.countP (fun t => t.name == n)

/-! ### Position lemmas for the locator -/

theorem locateFrom_eq (cs : List Char) (off : Nat) (n : List Char) :
    locateFrom cs off n =
      match mnt_optstr_parse_next cs with
      | .error => .error
      | .done => .notFound
      | .next name val rest =>
        let consumed := cs.length - rest.length
        let e := if cs[consumed - 1]? = some ',' then off + consumed - 1 else off + consumed
        if name = n then
          .found off e name.length (val.map fun v => (off + name.length + 1, v.length))
        else locateFrom rest (off + consumed) n := by
  unfold locateFrom
  rw [show cs.length + 1 = cs.length + 1 from rfl]
  simp only [locateGo]
  cases hp : mnt_optstr_parse_next cs with
  | error => rfl
  | done => rfl
  | next name val rest =>
    simp only []
    by_cases hname : name = n
    · rw [if_pos hname, if_pos hname]
    · rw [if_neg hname, if_neg hname]
      have hlt := parse_next_rest_lt hp
      exact locateGo_fuel_irrel cs.length (rest.length + 1) rest (by omega) (by omega) _ n

/-- Pointers returned by the locator, re-based to a new origin. -/
def LocRes.shift (off : Nat) : LocRes → LocRes
  | .found b e ns vo => .found (off + b) (off + e) ns (vo.map fun p => (off + p.1, p.2))
  | .error => .error
  | .notFound => .notFound

theorem LocRes.shift_shift (a b : Nat) (r : LocRes) :
    (r.shift b).shift a = r.shift (a + b) := by
  cases r with
  | found bb ee ns vo => cases vo <;> simp [LocRes.shift, Nat.add_assoc]
  | error => rfl
  | notFound => rfl

theorem locateFrom_shift_aux : ∀ (L : Nat) (cs : List Char), cs.length ≤ L →
    ∀ (off : Nat) (n : List Char), locateFrom cs off n = (locateFrom cs 0 n).shift off := by
  intro L
  induction L with
  | zero =>
    intro cs hlen off n
    have hnil : cs = [] := by
      cases cs with
      | nil => rfl
      | cons a l => simp at hlen
    subst hnil
    rw [locateFrom_eq, locateFrom_eq]
    simp [mnt_optstr_parse_next, scanOpt, LocRes.shift]
  | succ L ih =>
    intro cs hlen off n
    rw [locateFrom_eq cs off n, locateFrom_eq cs 0 n]
    cases hp : mnt_optstr_parse_next cs with
    | error => simp [LocRes.shift]
    | done => simp [LocRes.shift]
    | next name val rest =>
      have hlt := parse_next_rest_lt hp
      have hcons : 1 ≤ cs.length - rest.length := by omega
      simp only []
      by_cases hn : name = n
      · rw [if_pos hn, if_pos hn]
        by_cases hcomma : cs[cs.length - rest.length - 1]? = some ','
        · rw [if_pos hcomma, if_pos hcomma]
          cases val with
          | none => simp [LocRes.shift]; omega
          | some v => simp [LocRes.shift]; omega
        · rw [if_neg hcomma, if_neg hcomma]
          cases val with
          | none => simp [LocRes.shift]
          | some v => simp [LocRes.shift]; omega
      · rw [if_neg hn, if_neg hn]
        have h1 := ih rest (by omega) (off + (cs.length - rest.length)) n
        have h2 := ih rest (by omega) (cs.length - rest.length) n
        rw [h1]
        rw [show (0 : Nat) + (cs.length - rest.length) = cs.length - rest.length by omega, h2]
        rw [LocRes.shift_shift]

theorem locateFrom_shift (cs : List Char) (off : Nat) (n : List Char) :
    locateFrom cs off n = (locateFrom cs 0 n).shift off :=
  locateFrom_shift_aux cs.length cs le_rfl off n

theorem locateFrom_bounds_aux : ∀ (L : Nat) (cs : List Char), cs.length ≤ L →
    ∀ off n b e ns vo, locateFrom cs off n = .found b e ns vo →
      off ≤ b ∧ b ≤ e ∧ e ≤ off + cs.length := by
  intro L
  induction L with
  | zero =>
    intro cs hlen off n b e ns vo h
    have hnil : cs = [] := by
      cases cs with
      | nil => rfl
      | cons a l => simp at hlen
    subst hnil
    rw [locateFrom_eq] at h
    simp [mnt_optstr_parse_next, scanOpt] at h
  | succ L ih =>
    intro cs hlen off n b e ns vo h
    rw [locateFrom_eq] at h
    cases hp : mnt_optstr_parse_next cs with
    | error => rw [hp] at h; exact absurd h (by simp)
    | done => rw [hp] at h; exact absurd h (by simp)
    | next name val rest =>
      rw [hp] at h
      have hlt := parse_next_rest_lt hp
      have hcons : 1 ≤ cs.length - rest.length := by omega
      simp only [] at h
      by_cases hn : name = n
      · rw [if_pos hn] at h
        have hb : b = off := by
          simp only [LocRes.found.injEq] at h
          exact h.1.symm
        have he : e = (if cs[cs.length - rest.length - 1]? = some ',' then
            off + (cs.length - rest.length) - 1 else off + (cs.length - rest.length)) := by
          simp only [LocRes.found.injEq] at h
          exact h.2.1.symm
        subst hb
        by_cases hcomma : cs[cs.length - rest.length - 1]? = some ','
        · rw [if_pos hcomma] at he
          subst he
          refine ⟨le_rfl, ?_, ?_⟩ <;> omega
        · rw [if_neg hcomma] at he
          subst he
          refine ⟨le_rfl, ?_, ?_⟩ <;> omega
      · rw [if_neg hn] at h
        have := ih rest (by omega) (off + (cs.length - rest.length)) n b e ns vo h
        refine ⟨by omega, this.2.1, by omega⟩

theorem locateFrom_bounds {cs : List Char} {off : Nat} {n : List Char} {b e ns : Nat}
    {vo : Option (Nat × Nat)} (h : locateFrom cs off n = .found b e ns vo) :
    off ≤ b ∧ b ≤ e ∧ e ≤ off + cs.length :=
  locateFrom_bounds_aux cs.length cs le_rfl off n b e ns vo h

/-! ### Re-basing the editing primitives across a prefix -/

theorem take_append_off (pre s : List Char) (i : Nat) :
    (pre ++ s).take (pre.length + i) = pre ++ s.take i := by
  rw [List.take_append_eq_append_take, List.take_all_of_le (by omega)]
  congr 2
  omega

theorem drop_append_off (pre s : List Char) (i : Nat) :
    (pre ++ s).drop (pre.length + i) = s.drop i := by
  rw [List.drop_append_eq_append_drop, List.drop_eq_nil_of_le (by omega)]
  simp only [List.nil_append]
  congr 1
  omega

theorem getElem?_append_off (pre s : List Char) (i : Nat) :
    (pre ++ s)[pre.length + i]? = s[i]? := by
  rw [List.getElem?_append_right (by omega)]
  congr 1
  omega

/-- Common part of `remove_at_append`: the cut-and-fix-up stage after the
end of the range has been widened (`ee` is the widened end, relative to
`s`). -/
theorem cut_append (pre s : List Char) (b ee : Nat) (hpre : pre ≠ [])
    (hlast : pre[pre.length - 1]? = some ',') (hbs : b ≤ s.length) :
    (if pre.length + b ≠ 0 ∧
        ((pre ++ s).take (pre.length + b) ++ (pre ++ s).drop (pre.length + ee)).length =
          pre.length + b ∧
        ((pre ++ s).take (pre.length + b) ++
          (pre ++ s).drop (pre.length + ee))[pre.length + b - 1]? = some ','
     then ((pre ++ s).take (pre.length + b) ++
        (pre ++ s).drop (pre.length + ee)).take (pre.length + b - 1)
     else (pre ++ s).take (pre.length + b) ++ (pre ++ s).drop (pre.length + ee)) =
    (if b = 0 ∧ (if b ≠ 0 ∧ (s.take b ++ s.drop ee).length = b ∧
            (s.take b ++ s.drop ee)[b - 1]? = some ','
          then (s.take b ++ s.drop ee).take (b - 1) else s.take b ++ s.drop ee) = []
     then pre.dropLast
     else pre ++
       (if b ≠ 0 ∧ (s.take b ++ s.drop ee).length = b ∧
            (s.take b ++ s.drop ee)[b - 1]? = some ','
        then (s.take b ++ s.drop ee).take (b - 1) else s.take b ++ s.drop ee)) := by
  have hplen : 1 ≤ pre.length := by
    cases pre with
    | nil => exact absurd rfl hpre
    | cons a l => simp
  rw [take_append_off, drop_append_off]
  rw [show pre ++ s.take b ++ s.drop ee = pre ++ (s.take b ++ s.drop ee) by
    simp [List.append_assoc]]
  by_cases hb0 : b = 0
  case pos =>
    subst hb0
    simp only [List.take_zero, List.nil_append, Nat.add_zero]
    rw [if_neg (show ¬(0 ≠ 0 ∧ (s.drop ee).length = 0 ∧ (s.drop ee)[0 - 1]? = some ',') by
      simp)]
    by_cases hdrop : s.drop ee = []
    case pos =>
      rw [hdrop, List.append_nil]
      rw [if_pos (show True ∧ ([] : List Char) = [] from ⟨trivial, rfl⟩)]
      rw [if_pos (show pre.length ≠ 0 ∧ pre.length = pre.length ∧
          pre[pre.length - 1]? = some ',' from ⟨by omega, rfl, hlast⟩)]
      rw [← List.dropLast_eq_take]
    case neg =>
      rw [if_neg (show ¬(True ∧ s.drop ee = []) from fun hh => hdrop hh.2)]
      rw [if_neg (show ¬(pre.length ≠ 0 ∧ (pre ++ s.drop ee).length = pre.length ∧
          (pre ++ s.drop ee)[pre.length - 1]? = some ',') from ?_)]
      rintro ⟨-, hl, -⟩
      rw [List.length_append] at hl
      exact hdrop (List.eq_nil_of_length_eq_zero (by omega))
  case neg =>
    have htb : (s.take b).length = b := by
      rw [List.length_take]
      omega
    rw [if_neg (show ¬(b = 0 ∧ (if b ≠ 0 ∧ (s.take b ++ s.drop ee).length = b ∧
        (s.take b ++ s.drop ee)[b - 1]? = some ','
        then (s.take b ++ s.drop ee).take (b - 1) else s.take b ++ s.drop ee) = [])
      from fun hh => hb0 hh.1)]
    by_cases hfin : (s.take b ++ s.drop ee).length = b ∧
        (s.take b ++ s.drop ee)[b - 1]? = some ','
    case pos =>
      rw [if_pos (show b ≠ 0 ∧ (s.take b ++ s.drop ee).length = b ∧
          (s.take b ++ s.drop ee)[b - 1]? = some ',' from ⟨hb0, hfin.1, hfin.2⟩)]
      rw [if_pos (show pre.length + b ≠ 0 ∧
          (pre ++ (s.take b ++ s.drop ee)).length = pre.length + b ∧
          (pre ++ (s.take b ++ s.drop ee))[pre.length + b - 1]? = some ',' from
        ⟨by omega, by simp [hfin.1], by
          rw [show pre.length + b - 1 = pre.length + (b - 1) by omega, getElem?_append_off]
          exact hfin.2⟩)]
      rw [show pre.length + b - 1 = pre.length + (b - 1) by omega, take_append_off]
    case neg =>
      rw [if_neg (show ¬(b ≠ 0 ∧ (s.take b ++ s.drop ee).length = b ∧
          (s.take b ++ s.drop ee)[b - 1]? = some ',') from fun hh => hfin ⟨hh.2.1, hh.2.2⟩)]
      rw [if_neg (show ¬(pre.length + b ≠ 0 ∧
          (pre ++ (s.take b ++ s.drop ee)).length = pre.length + b ∧
          (pre ++ (s.take b ++ s.drop ee))[pre.length + b - 1]? = some ',') from ?_)]
      rintro ⟨-, hl, hg⟩
      rw [List.length_append] at hl
      refine hfin ⟨by omega, ?_⟩
      rw [show pre.length + b - 1 = pre.length + (b - 1) by omega, getElem?_append_off] at hg
      exact hg

/-- Removing a located range that lies entirely inside the suffix `s` of
`pre ++ s`, where `pre` ends with the separating `','`.  The edit of
`mnt_optstr_remove_option_at` only touches the suffix, except that when
the removed item is the whole suffix (`b = 0` and nothing left) the final
trailing-comma fix-up of the C code eats the `','` that terminates
`pre`. -/
theorem remove_at_append (pre s : List Char) (b e : Nat) (hpre : pre ≠ [])
    (hlast : pre[pre.length - 1]? = some ',') (hb : b ≤ e) (he : e ≤ s.length) :
    mnt_optstr_remove_option_at (pre ++ s) (pre.length + b) (pre.length + e) =
      (if b = 0 ∧ mnt_optstr_remove_option_at s b e = [] then pre.dropLast
       else pre ++ mnt_optstr_remove_option_at s b e) := by
  have hcond1 : ((pre.length + b = 0 ∨ (pre ++ s)[pre.length + b - 1]? = some ',') ∧
      (pre ++ s)[pre.length + e]? = some ',') ↔
      ((b = 0 ∨ s[b - 1]? = some ',') ∧ s[e]? = some ',') := by
    have hplen : 1 ≤ pre.length := by
      cases pre with
      | nil => exact absurd rfl hpre
      | cons a l => simp
    rw [getElem?_append_off pre s e]
    constructor
    · rintro ⟨h1, h2⟩
      refine ⟨?_, h2⟩
      rcases h1 with h1 | h1
      · omega
      · by_cases hb0 : b = 0
        · exact Or.inl hb0
        · right
          rw [show pre.length + b - 1 = pre.length + (b - 1) by omega,
            getElem?_append_off pre s (b - 1)] at h1
          exact h1
    · rintro ⟨h1, h2⟩
      refine ⟨?_, h2⟩
      right
      rcases h1 with h1 | h1
      · subst h1
        rw [show pre.length + 0 - 1 = pre.length - 1 by omega,
          List.getElem?_append_left (by omega)]
        exact hlast
      · by_cases hb0 : b = 0
        · subst hb0
          rw [show pre.length + 0 - 1 = pre.length - 1 by omega,
            List.getElem?_append_left (by omega)]
          exact hlast
        · rw [show pre.length + b - 1 = pre.length + (b - 1) by omega,
            getElem?_append_off pre s (b - 1)]
          exact h1
  simp only [mnt_optstr_remove_option_at]
  by_cases hcin : (b = 0 ∨ s[b - 1]? = some ',') ∧ s[e]? = some ','
  case pos =>
    rw [if_pos (hcond1.mpr hcin), if_pos hcin]
    rw [show pre.length + e + 1 = pre.length + (e + 1) by omega]
    exact cut_append pre s b (e + 1) hpre hlast (by omega)
  case neg =>
    rw [if_neg (fun hc => hcin (hcond1.mp hc)), if_neg hcin]
    exact cut_append pre s b e hpre hlast (by omega)

/-- Inserting at a position strictly inside the suffix `s` of `pre ++ s`
only touches the suffix. -/
theorem insert_value_append (pre s : List Char) (p : Nat) (sub : List Char) (hp : 1 ≤ p) :
    insert_value (pre ++ s) (pre.length + p) sub = pre ++ insert_value s p sub := by
  simp only [insert_value]
  have hg : (pre ++ s)[pre.length + p - 1]? = s[p - 1]? := by
    rw [show pre.length + p - 1 = pre.length + (p - 1) by omega, getElem?_append_off]
  rw [hg, take_append_off, drop_append_off]
  have hsep : ((pre.length + p > 0 ∧ s[p - 1]? = some '=') ↔ (p > 0 ∧ s[p - 1]? = some '=')) := by
    constructor
    · rintro ⟨-, h2⟩
      exact ⟨by omega, h2⟩
    · rintro ⟨-, h2⟩
      exact ⟨by omega, h2⟩
  by_cases hc : p > 0 ∧ s[p - 1]? = some '='
  case pos =>
    rw [if_neg (show ¬¬(pre.length + p > 0 ∧ s[p - 1]? = some '=') from
        fun hh => hh (hsep.mpr hc)),
      if_neg (show ¬¬(p > 0 ∧ s[p - 1]? = some '=') from fun hh => hh hc)]
    simp [List.append_assoc]
  case neg =>
    rw [if_pos (show ¬(pre.length + p > 0 ∧ s[p - 1]? = some '=') from
        fun hh => hc (hsep.mp hh)),
      if_pos hc]
    simp [List.append_assoc]

/-! ### Rendering utilities -/

theorem renderOpts_eq_nil_iff {ts : List OptItem} (hwf : ∀ x ∈ ts, WfItem x) :
    renderOpts ts = [] ↔ ts = [] := by
  cases ts with
  | nil => simp [renderOpts]
  | cons t rest =>
    simp only [renderOpts]
    constructor
    · intro h
      exact absurd (List.append_eq_nil.mp h).1 (renderItem_ne_nil (hwf t (by simp)))
    · intro h
      exact absurd h (by simp)

theorem renderOpts_cons_ne_nil (t : OptItem) (ts : List OptItem) :
    renderOpts (t :: ts) = renderItem t ++ (if ts.isEmpty then [] else ',' :: renderOpts ts) :=
  rfl

/-- Splitting the rendering of a non-empty tail off as `item ++ ',' :: …`. -/
theorem renderOpts_cons_of_ne {t : OptItem} {ts : List OptItem} (h : ts ≠ []) :
    renderOpts (t :: ts) = (renderItem t ++ [',']) ++ renderOpts ts := by
  rw [renderOpts_cons_ne_nil]
  cases ts with
  | nil => exact absurd rfl h
  | cons a l => simp

theorem removeFirstTok_mem {ts : List OptItem} {n : List Char} {ts' : List OptItem}
    (h : removeFirstTok ts n = some ts') : ∀ x ∈ ts', x ∈ ts := by
  induction ts generalizing ts' with
  | nil => simp [removeFirstTok] at h
  | cons t rest ih =>
    simp only [removeFirstTok] at h
    by_cases hn : t.name = n
    · rw [if_pos hn] at h
      simp only [Option.some.injEq] at h
      subst h
      intro x hx
      exact List.mem_cons_of_mem _ hx
    · rw [if_neg hn] at h
      cases hr : removeFirstTok rest n with
      | none => rw [hr] at h; simp at h
      | some rs =>
        rw [hr] at h
        simp only [Option.map_some', Option.some.injEq] at h
        subst h
        intro x hx
        rcases List.mem_cons.mp hx with hx | hx
        · simp [hx]
        · exact List.mem_cons_of_mem _ (ih hr x hx)

theorem replaceFirstVal_mem {ts : List OptItem} {n : List Char} {v : Option (List Char)} :
    ∀ x ∈ replaceFirstVal ts n v, x ∈ ts ∨ (x.value = v ∧ ∃ y ∈ ts, y.name = x.name) := by
  induction ts with
  | nil => simp [replaceFirstVal]
  | cons t rest ih =>
    simp only [replaceFirstVal]
    by_cases hn : t.name = n
    · rw [if_pos hn]
      intro x hx
      rcases List.mem_cons.mp hx with hx | hx
      · subst hx
        exact Or.inr ⟨rfl, t, by simp⟩
      · exact Or.inl (List.mem_cons_of_mem _ hx)
    · rw [if_neg hn]
      intro x hx
      rcases List.mem_cons.mp hx with hx | hx
      · exact Or.inl (by simp [hx])
      · rcases ih x hx with hh | ⟨h1, y, hy, h2⟩
        · exact Or.inl (List.mem_cons_of_mem _ hh)
        · exact Or.inr ⟨h1, y, List.mem_cons_of_mem _ hy, h2⟩

theorem replaceFirstVal_wf {ts : List OptItem} {n : List Char} {v : Option (List Char)}
    (hwf : ∀ x ∈ ts, WfItem x)
    (hv : ∀ vv, v = some vv → (',' ∉ vv ∧ '"' ∉ vv)) :
    ∀ x ∈ replaceFirstVal ts n v, WfItem x := by
  intro x hx
  rcases replaceFirstVal_mem x hx with hh | ⟨h1, y, hy, h2⟩
  · exact hwf x hh
  · have hwy := hwf y hy
    exact ⟨h2 ▸ hwy.1, h2 ▸ hwy.2.1, h2 ▸ hwy.2.2.1, h2 ▸ hwy.2.2.2.1,
      fun vv hvv => hv vv (h1 ▸ hvv)⟩

theorem replaceFirstVal_ne_nil {ts : List OptItem} {n : List Char} {v : Option (List Char)}
    (h : ts ≠ []) : replaceFirstVal ts n v ≠ [] := by
  cases ts with
  | nil => exact absurd rfl h
  | cons t rest =>
    simp only [replaceFirstVal]
    by_cases hn : t.name = n
    · rw [if_pos hn]
      simp
    · rw [if_neg hn]
      simp

theorem getElem?_ne_of_not_mem {l : List Char} {i : Nat} {c : Char} (h : c ∉ l) :
    l[i]? ≠ some c := fun hc => h (List.getElem?_mem hc)

theorem firstNamed_none_iff (ts : List OptItem) (n : List Char) :
    firstNamed ts n = none ↔ removeFirstTok ts n = none := by
  induction ts with
  | nil => simp [firstNamed, removeFirstTok]
  | cons t rest ih =>
    simp only [firstNamed, removeFirstTok]
    by_cases hn : t.name = n
    · rw [if_pos hn, if_pos hn]
      simp
    · rw [if_neg hn, if_neg hn]
      rw [ih]
      cases removeFirstTok rest n <;> simp

theorem firstNamed_some_ne_nil {ts : List OptItem} {n : List Char} {t0 : OptItem}
    (h : firstNamed ts n = some t0) : ts ≠ [] := by
  cases ts with
  | nil => simp [firstNamed] at h
  | cons a l => simp

theorem concat_comma_last (l : List Char) :
    (l ++ [','])[(l ++ [',']).length - 1]? = some ',' := by
  rw [List.length_append]
  simp only [List.length_singleton, Nat.add_sub_cancel]
  rw [List.getElem?_append_right le_rfl]
  simp

/-! ### Behaviour of locate / remove / insert on the first item -/

theorem locate_head_found {n : List Char} (t : OptItem) (rest : List OptItem)
    (ht : WfItem t) (hname : t.name = n) :
    locateFrom (renderOpts (t :: rest)) 0 n =
      .found 0 (renderItem t).length n.length
        (t.value.map fun v => (0 + n.length + 1, v.length)) := by
  have hparse := parse_next_render rest ht
  rw [locateFrom_eq, hparse]
  simp only [if_pos hname]
  cases rest with
  | nil =>
    have h1 : renderOpts (t :: ([] : List OptItem)) = renderItem t := by simp [renderOpts]
    have h0 : renderOpts ([] : List OptItem) = [] := rfl
    rw [h0, h1]
    simp only [List.length_nil]
    have hlast : ¬((renderItem t)[(renderItem t).length - 0 - 1]? = some ',') :=
      getElem?_ne_of_not_mem (renderItem_no_comma ht)
    rw [if_neg hlast]
    rw [hname]
    simp
  | cons t2 ts2 =>
    have h1 : renderOpts (t :: t2 :: ts2) = (renderItem t ++ [',']) ++ renderOpts (t2 :: ts2) :=
      renderOpts_cons_of_ne (by simp)
    rw [h1]
    have hlen : ((renderItem t ++ [',']) ++ renderOpts (t2 :: ts2)).length -
        (renderOpts (t2 :: ts2)).length = (renderItem t).length + 1 := by
      simp only [List.length_append, List.length_singleton]
      omega
    rw [hlen]
    have hcomma : ((renderItem t ++ [',']) ++
        renderOpts (t2 :: ts2))[(renderItem t).length + 1 - 1]? = some ',' := by
      rw [show (renderItem t).length + 1 - 1 = (renderItem t).length by omega]
      rw [List.getElem?_append_left (by simp)]
      rw [List.getElem?_append_right le_rfl]
      simp
    rw [if_pos hcomma]
    rw [hname]
    simp

theorem remove_head_whole {t : OptItem} (rest : List OptItem) (ht : WfItem t) :
    mnt_optstr_remove_option_at (renderOpts (t :: rest)) 0 (renderItem t).length =
      renderOpts rest := by
  cases rest with
  | nil =>
    have h1 : renderOpts [t] = renderItem t := by simp [renderOpts]
    rw [h1]
    simp only [mnt_optstr_remove_option_at]
    rw [if_neg (show ¬((True ∨ (renderItem t)[0 - 1]? = some ',') ∧
        (renderItem t)[(renderItem t).length]? = some ',') from ?_)]
    · rw [if_neg (by simp)]
      simp [renderOpts]
    · rintro ⟨-, h2⟩
      rw [List.getElem?_eq_none le_rfl] at h2
      exact absurd h2 (by simp)
  | cons t2 ts2 =>
    have h1 : renderOpts (t :: t2 :: ts2) = (renderItem t ++ [',']) ++ renderOpts (t2 :: ts2) :=
      renderOpts_cons_of_ne (by simp)
    rw [h1]
    simp only [mnt_optstr_remove_option_at]
    rw [if_pos (show (True ∨ ((renderItem t ++ [',']) ++
        renderOpts (t2 :: ts2))[0 - 1]? = some ',') ∧
        ((renderItem t ++ [',']) ++ renderOpts (t2 :: ts2))[(renderItem t).length]? = some ','
      from ⟨Or.inl trivial, ?_⟩)]
    · rw [if_neg (by simp)]
      rw [List.take_zero, List.nil_append]
      rw [show (renderItem t).length + 1 = (renderItem t ++ [',']).length by simp]
      exact List.drop_left _ _
    · rw [List.getElem?_append_left (by simp)]
      rw [List.getElem?_append_right le_rfl]
      simp

theorem remove_head_value {n : List Char} (hn : WfName n) {t : OptItem} (rest : List OptItem)
    (ht : WfItem t) (hname : t.name = n) :
    mnt_optstr_remove_option_at (renderOpts (t :: rest)) n.length (renderItem t).length =
      renderOpts (⟨t.name, none⟩ :: rest) := by
  have hnlen : 1 ≤ n.length := by
    cases hcn : n with
    | nil => exact absurd hcn hn.1
    | cons a l => simp
  have htail : renderOpts (t :: rest) =
      renderItem t ++ (if rest.isEmpty then [] else ',' :: renderOpts rest) := rfl
  have hitw : renderItem t =
      n ++ (match t.value with | some v => '=' :: v | none => []) := by
    rw [renderItem, hname]
  have hcs : renderOpts (t :: rest) =
      n ++ ((match t.value with | some v => '=' :: v | none => []) ++
        (if rest.isEmpty then [] else ',' :: renderOpts rest)) := by
    rw [htail, hitw, List.append_assoc]
  have hget1 : (renderOpts (t :: rest))[n.length - 1]? = n[n.length - 1]? := by
    rw [hcs]
    exact List.getElem?_append_left (by omega)
  have hc1 : ¬((n.length = 0 ∨ (renderOpts (t :: rest))[n.length - 1]? = some ',') ∧
      (renderOpts (t :: rest))[(renderItem t).length]? = some ',') := by
    rintro ⟨h1, -⟩
    rcases h1 with h1 | h1
    · omega
    · rw [hget1] at h1
      exact getElem?_ne_of_not_mem hn.2.1 h1
  simp only [mnt_optstr_remove_option_at]
  rw [if_neg hc1]
  have htk : (renderOpts (t :: rest)).take n.length = n := by
    rw [hcs]
    exact List.take_left n _
  have hdp : (renderOpts (t :: rest)).drop (renderItem t).length =
      (if rest.isEmpty then [] else ',' :: renderOpts rest) := by
    rw [htail]
    exact List.drop_left _ _
  have hc2 : ¬(n.length ≠ 0 ∧
      (n ++ (if rest.isEmpty then [] else ',' :: renderOpts rest)).length = n.length ∧
      (n ++ (if rest.isEmpty then [] else ',' :: renderOpts rest))[n.length - 1]? = some ',') := by
    rintro ⟨-, -, h3⟩
    rw [List.getElem?_append_left (by omega)] at h3
    exact getElem?_ne_of_not_mem hn.2.1 h3
  rw [htk, hdp]
  rw [if_neg hc2]
  show n ++ _ = renderOpts (⟨t.name, none⟩ :: rest)
  rw [show renderOpts (⟨t.name, none⟩ :: rest) =
      renderItem ⟨t.name, none⟩ ++ (if rest.isEmpty then [] else ',' :: renderOpts rest)
    from rfl]
  rw [show renderItem ⟨t.name, none⟩ = t.name from by simp [renderItem], hname]

theorem insert_head_value {n : List Char} (hn : WfName n) {t : OptItem} (rest : List OptItem)
    (hname : t.name = n) (vv : List Char) :
    insert_value (renderOpts (⟨t.name, none⟩ :: rest)) n.length vv =
      renderOpts (⟨t.name, some vv⟩ :: rest) := by
  have hnlen : 1 ≤ n.length := by
    cases hcn : n with
    | nil => exact absurd hcn hn.1
    | cons a l => simp
  have hcs : renderOpts (⟨t.name, none⟩ :: rest) =
      n ++ (if rest.isEmpty then [] else ',' :: renderOpts rest) := by
    rw [show renderOpts (⟨t.name, none⟩ :: rest) =
        renderItem ⟨t.name, none⟩ ++ (if rest.isEmpty then [] else ',' :: renderOpts rest)
      from rfl]
    rw [show renderItem ⟨t.name, none⟩ = t.name from by simp [renderItem], hname]
  have hsep : ¬(n.length > 0 ∧
      (renderOpts (⟨t.name, none⟩ :: rest))[n.length - 1]? = some '=') := by
    rintro ⟨-, h2⟩
    rw [hcs, List.getElem?_append_left (by omega)] at h2
    exact getElem?_ne_of_not_mem hn.2.2.1 h2
  simp only [insert_value]
  rw [if_pos hsep]
  rw [hcs]
  rw [show (n ++ (if rest.isEmpty then [] else ',' :: renderOpts rest)).take n.length = n from
    List.take_left n _]
  rw [show (n ++ (if rest.isEmpty then [] else ',' :: renderOpts rest)).drop n.length =
      (if rest.isEmpty then [] else ',' :: renderOpts rest) from List.drop_left n _]
  rw [show renderOpts (⟨t.name, some vv⟩ :: rest) =
      renderItem ⟨t.name, some vv⟩ ++ (if rest.isEmpty then [] else ',' :: renderOpts rest)
    from rfl]
  rw [show renderItem ⟨t.name, some vv⟩ = t.name ++ '=' :: vv from rfl, hname]

theorem memcpy_head_value {n : List Char} {t : OptItem} (rest : List OptItem)
    (hname : t.name = n) (vv oldv : List Char) (hv : t.value = some oldv) :
    (renderOpts (t :: rest)).take (n.length + 1) ++ vv ++
      (renderOpts (t :: rest)).drop (n.length + 1 + oldv.length) =
    renderOpts (⟨t.name, some vv⟩ :: rest) := by
  have hcs : renderOpts (t :: rest) =
      n ++ ('=' :: (oldv ++ (if rest.isEmpty then [] else ',' :: renderOpts rest))) := by
    rw [show renderOpts (t :: rest) =
        renderItem t ++ (if rest.isEmpty then [] else ',' :: renderOpts rest) from rfl]
    rw [renderItem, hv, hname]
    simp [List.append_assoc]
  rw [hcs]
  rw [show n.length + 1 + oldv.length = n.length + (1 + oldv.length) by omega]
  rw [take_append_off, drop_append_off]
  rw [show ('=' :: (oldv ++ (if rest.isEmpty then [] else ',' :: renderOpts rest))).take 1 =
    ['='] from rfl]
  rw [show ('=' :: (oldv ++ (if rest.isEmpty then [] else ',' :: renderOpts rest))).drop
      (1 + oldv.length) =
      (oldv ++ (if rest.isEmpty then [] else ',' :: renderOpts rest)).drop oldv.length from by
    rw [show 1 + oldv.length = oldv.length + 1 by omega]
    rfl]
  rw [List.drop_left oldv _]
  rw [show renderOpts (⟨t.name, some vv⟩ :: rest) =
      renderItem ⟨t.name, some vv⟩ ++ (if rest.isEmpty then [] else ',' :: renderOpts rest)
    from rfl]
  rw [show renderItem ⟨t.name, some vv⟩ = t.name ++ '=' :: vv from rfl, hname]
  simp [List.append_assoc]

/-- Master lemma: on a rendered well-formed token list, the locator finds
the first item named `n` (with its exact byte positions), and each of the
editing primitives used by `mnt_optstr_remove_option` /
`mnt_optstr_set_option` acts as the corresponding token-level edit. -/
theorem locate_spec {n : List Char} (hn : WfName n) :
    ∀ (ts : List OptItem), (∀ x ∈ ts, WfItem x) →
    (match firstNamed ts n with
     | none => locateFrom (renderOpts ts) 0 n = .notFound
     | some t0 => ∃ b e,
         locateFrom (renderOpts ts) 0 n =
           .found b e n.length (t0.value.map fun v => (b + n.length + 1, v.length)) ∧
         b + n.length ≤ e ∧ e ≤ (renderOpts ts).length ∧
         (∀ ts', removeFirstTok ts n = some ts' →
            mnt_optstr_remove_option_at (renderOpts ts) b e = renderOpts ts' ∧
            (ts' = [] → b = 0)) ∧
         mnt_optstr_remove_option_at (renderOpts ts) (b + n.length) e =
           renderOpts (replaceFirstVal ts n none) ∧
         (∀ vv, insert_value (mnt_optstr_remove_option_at (renderOpts ts) (b + n.length) e)
             (b + n.length) vv = renderOpts (replaceFirstVal ts n (some vv))) ∧
         (∀ vv oldv, t0.value = some oldv →
            (renderOpts ts).take (b + n.length + 1) ++ vv ++
              (renderOpts ts).drop (b + n.length + 1 + oldv.length) =
            renderOpts (replaceFirstVal ts n (some vv)))) := by
  have hnlen : 1 ≤ n.length := by
    cases hcn : n with
    | nil => exact absurd hcn hn.1
    | cons a l => simp
  intro ts
  induction ts with
  | nil =>
    intro hwf
    simp only [firstNamed]
    rw [locateFrom_eq]
    simp [renderOpts, mnt_optstr_parse_next, scanOpt]
  | cons t rest ih =>
    intro hwf
    have ht := hwf t (by simp)
    have hwr : ∀ x ∈ rest, WfItem x := fun x hx => hwf x (by simp [hx])
    have hparse := parse_next_render rest ht
    by_cases hname : t.name = n
    case pos =>
      simp only [firstNamed, if_pos hname]
      refine ⟨0, (renderItem t).length, ?_, ?_, ?_, ?_, ?_, ?_, ?_⟩
      · exact locate_head_found t rest ht hname
      · rw [renderItem, hname]
        simp
      · rw [show renderOpts (t :: rest) =
            renderItem t ++ (if rest.isEmpty then [] else ',' :: renderOpts rest) from rfl]
        simp
      · intro ts' hts'
        simp only [removeFirstTok, if_pos hname, Option.some.injEq] at hts'
        subst hts'
        exact ⟨remove_head_whole rest ht, fun _ => rfl⟩
      · rw [show (0 : Nat) + n.length = n.length by omega]
        simp only [replaceFirstVal, if_pos hname]
        exact remove_head_value hn rest ht hname
      · intro vv
        rw [show (0 : Nat) + n.length = n.length by omega]
        rw [remove_head_value hn rest ht hname]
        simp only [replaceFirstVal, if_pos hname]
        exact insert_head_value hn rest hname vv
      · intro vv oldv hvv
        rw [show (0 : Nat) + n.length + 1 = n.length + 1 by omega]
        simp only [replaceFirstVal, if_pos hname]
        exact memcpy_head_value rest hname vv oldv hvv
    case neg =>
      simp only [firstNamed, if_neg hname]
      have ihr := ih hwr
      cases hfr : firstNamed rest n with
      | none =>
        rw [hfr] at ihr
        rw [locateFrom_eq, hparse]
        simp only [if_neg hname]
        rw [locateFrom_shift, ihr]
        rfl
      | some t0 =>
        rw [hfr] at ihr
        obtain ⟨b, e, hfound, hbne, hel, hrm, h4, h5, h6⟩ := ihr
        have hrne : rest ≠ [] := firstNamed_some_ne_nil hfr
        have hsplit : renderOpts (t :: rest) =
            (renderItem t ++ [',']) ++ renderOpts rest := renderOpts_cons_of_ne hrne
        have hplen : (renderItem t ++ [',']).length = (renderItem t).length + 1 := by simp
        have hconsumed : (renderOpts (t :: rest)).length - (renderOpts rest).length =
            (renderItem t ++ [',']).length := by
          rw [hsplit]
          simp only [List.length_append, List.length_singleton]
          omega
        have hloc : locateFrom (renderOpts (t :: rest)) 0 n =
            LocRes.shift (renderItem t ++ [',']).length (locateFrom (renderOpts rest) 0 n) := by
          rw [locateFrom_eq, hparse]
          simp only [if_neg hname]
          rw [hconsumed, locateFrom_shift]
          rw [show (0 : Nat) + (renderItem t ++ [',']).length =
            (renderItem t ++ [',']).length by omega]
        refine ⟨(renderItem t ++ [',']).length + b, (renderItem t ++ [',']).length + e,
          ?_, by omega, ?_, ?_, ?_, ?_, ?_⟩
        · rw [hloc, hfound]
          cases hvv : t0.value with
          | none => simp [LocRes.shift]
          | some v =>
            simp only [LocRes.shift, Option.map_some']
            rw [show (renderItem t ++ [',']).length + (b + n.length + 1) =
              (renderItem t ++ [',']).length + b + n.length + 1 by omega]
        · rw [hsplit]
          simp only [List.length_append]
          omega
        · intro ts' hts'
          simp only [removeFirstTok, if_neg hname] at hts'
          cases hrt : removeFirstTok rest n with
          | none => rw [hrt] at hts'; simp at hts'
          | some rs =>
            rw [hrt] at hts'
            simp only [Option.map_some', Option.some.injEq] at hts'
            subst hts'
            obtain ⟨hrm1, hrm2⟩ := hrm rs hrt
            have hwrs : ∀ x ∈ rs, WfItem x := fun x hx => hwr x (removeFirstTok_mem hrt x hx)
            rw [hsplit]
            rw [remove_at_append (renderItem t ++ [',']) (renderOpts rest) b e
              (by simp) (concat_comma_last (renderItem t)) (by omega) hel]
            rw [hrm1]
            constructor
            · by_cases hnil : renderOpts rs = []
              · have hrs0 : rs = [] := (renderOpts_eq_nil_iff hwrs).mp hnil
                rw [if_pos ⟨hrm2 hrs0, hnil⟩]
                rw [List.dropLast_concat]
                rw [hrs0]
                simp [renderOpts]
              · rw [if_neg (fun hc => hnil hc.2)]
                have hrsne : rs ≠ [] := fun hc => hnil (by rw [hc]; rfl)
                rw [renderOpts_cons_of_ne hrsne]
            · intro hcon
              exact absurd hcon (by simp)
        · rw [hsplit,
            show (renderItem t ++ [',']).length + b + n.length =
              (renderItem t ++ [',']).length + (b + n.length) by omega]
          rw [remove_at_append (renderItem t ++ [',']) (renderOpts rest) (b + n.length) e
            (by simp) (concat_comma_last (renderItem t)) (by omega) hel]
          rw [if_neg (show ¬(b + n.length = 0 ∧
              mnt_optstr_remove_option_at (renderOpts rest) (b + n.length) e = [])
            from fun hc => by omega)]
          rw [h4]
          simp only [replaceFirstVal, if_neg hname]
          exact (renderOpts_cons_of_ne (replaceFirstVal_ne_nil hrne)).symm
        · intro vv
          have hrm4 : mnt_optstr_remove_option_at (renderOpts (t :: rest))
              ((renderItem t ++ [',']).length + b + n.length)
              ((renderItem t ++ [',']).length + e) =
              (renderItem t ++ [',']) ++
                mnt_optstr_remove_option_at (renderOpts rest) (b + n.length) e := by
            rw [hsplit,
              show (renderItem t ++ [',']).length + b + n.length =
                (renderItem t ++ [',']).length + (b + n.length) by omega]
            rw [remove_at_append (renderItem t ++ [',']) (renderOpts rest) (b + n.length) e
              (by simp) (concat_comma_last (renderItem t)) (by omega) hel]
            rw [if_neg (show ¬(b + n.length = 0 ∧
                mnt_optstr_remove_option_at (renderOpts rest) (b + n.length) e = [])
              from fun hc => by omega)]
          rw [hrm4,
            show (renderItem t ++ [',']).length + b + n.length =
              (renderItem t ++ [',']).length + (b + n.length) by omega]
          rw [insert_value_append _ _ _ _ (by omega)]
          rw [h5 vv]
          simp only [replaceFirstVal, if_neg hname]
          exact (renderOpts_cons_of_ne (replaceFirstVal_ne_nil hrne)).symm
        · intro vv oldv hvv
          rw [hsplit,
            show (renderItem t ++ [',']).length + b + n.length + 1 =
              (renderItem t ++ [',']).length + (b + n.length + 1) by omega]
          rw [take_append_off,
            show (renderItem t ++ [',']).length + (b + n.length + 1) + oldv.length =
              (renderItem t ++ [',']).length + (b + n.length + 1 + oldv.length) by omega]
          rw [drop_append_off]
          rw [List.append_assoc, List.append_assoc]
          rw [← List.append_assoc ((renderOpts rest).take (b + n.length + 1))]
          rw [h6 vv oldv hvv]
          simp only [replaceFirstVal, if_neg hname]
          exact (renderOpts_cons_of_ne (replaceFirstVal_ne_nil hrne)).symm

/-! ### Bridge: string-level operations equal token-level edits -/

theorem countName_zero_iff (ts : List OptItem) (n : List Char) :
    countName ts n = 0 ↔ firstNamed ts n = none := by
  induction ts with
  | nil => simp [countName, firstNamed]
  | cons t rest ih =>
    simp only [countName, List.countP_cons, firstNamed] at *
    by_cases hn : t.name = n
    · rw [if_pos hn]
      simp [hn]
    · rw [if_neg hn]
      simp only [show (t.name == n) = false from by simpa using hn]
      simpa using ih

/-- `mnt_optstr_remove_option` on a rendered well-formed list removes
exactly the first token with the given name. -/
theorem remove_option_render {n : List Char} (hn : WfName n) {ts : List OptItem}
    (hwf : ∀ x ∈ ts, WfItem x) :
    mnt_optstr_remove_option (renderOpts ts) n =
      (match removeFirstTok ts n with
       | none => .notFound
       | some ts' => .ok (renderOpts ts')) := by
  have hspec := locate_spec hn ts hwf
  unfold mnt_optstr_remove_option mnt_optstr_locate_option
  cases hfr : firstNamed ts n with
  | none =>
    rw [hfr] at hspec
    rw [hspec, (firstNamed_none_iff ts n).mp hfr]
  | some t0 =>
    rw [hfr] at hspec
    obtain ⟨b, e, hfound, -, -, hrm, -, -, -⟩ := hspec
    rw [hfound]
    cases hrt : removeFirstTok ts n with
    | none => exact absurd hfr (by rw [(firstNamed_none_iff ts n).mpr hrt]; simp)
    | some ts' => simp [(hrm ts' hrt).1]

theorem renderOpts_append_singleton (ts : List OptItem) (x : OptItem) (h : ts ≠ []) :
    renderOpts (ts ++ [x]) = renderOpts ts ++ ',' :: renderItem x := by
  induction ts with
  | nil => exact absurd rfl h
  | cons t rest ih =>
    cases hr : rest with
    | nil =>
      simp [renderOpts, renderItem]
    | cons t2 ts2 =>
      rw [hr] at ih
      have ih2 := ih (by simp)
      rw [show ((t :: t2 :: ts2 : List OptItem) ++ [x]) = t :: ((t2 :: ts2) ++ [x]) from rfl]
      rw [renderOpts_cons_of_ne (show ((t2 :: ts2 : List OptItem) ++ [x]) ≠ [] by simp)]
      rw [renderOpts_cons_of_ne (show (t2 :: ts2 : List OptItem) ≠ [] by simp)]
      rw [ih2]
      simp

/-- `mnt_optstr_append_option` on a rendered well-formed list appends one
token; a `none` or empty value appends a bare name. -/
theorem append_option_render {ts : List OptItem} (hwf : ∀ x ∈ ts, WfItem x)
    (n : List Char) (v : Option (List Char)) :
    mnt_optstr_append_option (renderOpts ts) n v =
      renderOpts (ts ++ [⟨n, match v with
        | some vv => if vv.isEmpty then none else some vv
        | none => none⟩]) := by
  unfold mnt_optstr_append_option
  by_cases hts : ts = []
  · subst hts
    rw [if_pos (by simp [renderOpts])]
    cases v with
    | none => simp [renderOpts, renderItem]
    | some vv =>
      cases hvv : vv.isEmpty with
      | true => simp [renderOpts, renderItem, hvv]
      | false => simp [renderOpts, renderItem, hvv]
  · have hne : renderOpts ts ≠ [] := fun hc => hts ((renderOpts_eq_nil_iff hwf).mp hc)
    rw [if_neg (fun hc => hne (List.isEmpty_iff.mp hc))]
    rw [renderOpts_append_singleton ts _ hts]
    congr 1
    cases v with
    | none => simp [renderItem]
    | some vv =>
      cases hvv : vv.isEmpty with
      | true => simp [renderItem, hvv, List.isEmpty_iff.mp hvv]
      | false => simp [renderItem, hvv]

theorem replaceFirstVal_self {ts : List OptItem} {n : List Char} {t0 : OptItem}
    (hfr : firstNamed ts n = some t0) (hv : t0.value = v) :
    replaceFirstVal ts n v = ts := by
  induction ts with
  | nil => simp [firstNamed] at hfr
  | cons t rest ih =>
    simp only [firstNamed] at hfr
    simp only [replaceFirstVal]
    by_cases hname : t.name = n
    · rw [if_pos hname] at hfr
      rw [if_pos hname]
      simp only [Option.some.injEq] at hfr
      subst hfr
      rw [← hv]
    · rw [if_neg hname] at hfr
      rw [if_neg hname, ih hfr]

/-- `mnt_optstr_set_option` with a new value, when the first token named
`n` exists and has a value: both the same-length (`memcpy`) branch and
the remove-and-insert branch replace the value in place. -/
theorem set_option_replace_render {n : List Char} (hn : WfName n) {ts : List OptItem}
    (hwf : ∀ x ∈ ts, WfItem x) {t0 : OptItem} (hfr : firstNamed ts n = some t0)
    {oldv : List Char} (hold : t0.value = some oldv) (vv : List Char) :
    mnt_optstr_set_option (renderOpts ts) n (some vv) =
      .ok (renderOpts (replaceFirstVal ts n (some vv))) := by
  have hspec := locate_spec hn ts hwf
  rw [hfr] at hspec
  obtain ⟨b, e, hfound, -, -, -, -, h5, h6⟩ := hspec
  unfold mnt_optstr_set_option mnt_optstr_locate_option
  rw [hfound, hold]
  simp only [Option.map_some']
  by_cases hlen : vv.length = oldv.length
  · rw [if_pos hlen]
    rw [show b + n.length + 1 + oldv.length = b + n.length + 1 + oldv.length from rfl]
    rw [h6 vv oldv hold]
  · rw [if_neg hlen]
    rw [h5 vv]

/-- `mnt_optstr_set_option` with a new value, when the first token named
`n` exists and is a bare name: the `insert_value` branch adds `=value` in
place. -/
theorem set_option_insert_render {n : List Char} (hn : WfName n) {ts : List OptItem}
    (hwf : ∀ x ∈ ts, WfItem x) {t0 : OptItem} (hfr : firstNamed ts n = some t0)
    (hold : t0.value = none) (vv : List Char) :
    mnt_optstr_set_option (renderOpts ts) n (some vv) =
      .ok (renderOpts (replaceFirstVal ts n (some vv))) := by
  have hspec := locate_spec hn ts hwf
  rw [hfr] at hspec
  obtain ⟨b, e, hfound, -, -, -, h4, h5, -⟩ := hspec
  unfold mnt_optstr_set_option mnt_optstr_locate_option
  rw [hfound, hold]
  simp only [Option.map_none']
  have h5' := h5 vv
  rw [h4, replaceFirstVal_self hfr hold] at h5'
  rw [h5']

/-- `mnt_optstr_set_option` appends when the name is absent. -/
theorem set_option_notfound_render {n : List Char} (hn : WfName n) {ts : List OptItem}
    (hwf : ∀ x ∈ ts, WfItem x) (hcnt : countName ts n = 0) (v : Option (List Char)) :
    mnt_optstr_set_option (renderOpts ts) n v =
      .ok (mnt_optstr_append_option (renderOpts ts) n v) := by
  have hspec := locate_spec hn ts hwf
  rw [(countName_zero_iff ts n).mp hcnt] at hspec
  unfold mnt_optstr_set_option mnt_optstr_locate_option
  rw [hspec]

/-! ### Characterisation of the parser's end / error outcomes (for C6) -/

/-- The `open_quote` state after scanning the whole string. -/
def quoteEnd : List Char → Bool → Bool
  | [], q => q
  | c :: rest, q => quoteEnd rest (xor q (c == '"'))

/-- Is there a `','` outside of quoted blocks (i.e. one the scanner's
separator test could see)? -/
def hasUnquotedComma : List Char → Bool → Bool
  | [], _ => false
  | c :: rest, q =>
    let q' := xor q (c == '"')
    if !q' && c == ',' then true else hasUnquotedComma rest q'

theorem scanOpt_atEnd_iff : ∀ (cs : List Char) (q : Bool),
    scanOpt cs q = .atEnd ↔
      (cs = [] ∨ (quoteEnd cs q = true ∧ hasUnquotedComma cs q = false)) := by
  intro cs
  induction cs with
  | nil =>
    intro q
    simp [scanOpt, quoteEnd, hasUnquotedComma]
  | cons c rest ih =>
    intro q
    cases hq : xor q (c == '"') with
    | true =>
      simp only [scanOpt, quoteEnd, hasUnquotedComma, hq, if_true, Bool.not_true,
        Bool.false_and, Bool.false_eq_true, if_false]
      have hm : (match scanOpt rest true with
          | ScanOut.atEnd => ScanOut.atEnd
          | ScanOut.comma it rs => ScanOut.comma (c :: it) rs
          | ScanOut.last it => ScanOut.last (c :: it)) = ScanOut.atEnd ↔
          scanOpt rest true = ScanOut.atEnd := by
        cases scanOpt rest true <;> simp
      rw [hm, ih true]
      constructor
      · rintro (h | h)
        · subst h
          exact Or.inr ⟨rfl, rfl⟩
        · exact Or.inr h
      · rintro (h | h)
        · exact absurd h (by simp)
        · cases hrest : rest with
          | nil => exact Or.inl rfl
          | cons a l => right; rw [← hrest]; exact h
    | false =>
      cases hc : c == ',' with
      | true =>
        have hceq : c = ',' := by simpa using hc
        simp only [scanOpt, quoteEnd, hasUnquotedComma, hq, Bool.false_eq_true, if_false, hc,
          if_true, Bool.not_false, Bool.true_and]
        constructor
        · intro h
          exact absurd h (by simp)
        · rintro (h | h)
          · exact absurd h (by simp)
          · exact absurd h.2 (by simp)
      | false =>
        cases hrest : rest with
        | nil =>
          simp only [scanOpt, quoteEnd, hasUnquotedComma, hq, Bool.false_eq_true, if_false, hc,
            List.isEmpty_nil, if_true, Bool.not_false, Bool.true_and]
          constructor
          · intro h
            exact absurd h (by simp)
          · rintro (h | h)
            · exact absurd h (by simp)
            · exact h.1.elim
        | cons c2 rest2 =>
          rw [← hrest]
          have hrne : rest.isEmpty = false := by rw [hrest]; rfl
          simp only [scanOpt, quoteEnd, hasUnquotedComma, hq, Bool.false_eq_true, if_false, hc,
            hrne, Bool.not_false, Bool.true_and]
          have hm : (match scanOpt rest false with
              | ScanOut.atEnd => ScanOut.atEnd
              | ScanOut.comma it rs => ScanOut.comma (c :: it) rs
              | ScanOut.last it => ScanOut.last (c :: it)) = ScanOut.atEnd ↔
              scanOpt rest false = ScanOut.atEnd := by
            cases scanOpt rest false <;> simp
          rw [hm, ih false]
          constructor
          · rintro (h | h)
            · subst h
              simp at hrne
            · exact Or.inr h
          · rintro (h | h)
            · exact absurd h (by simp)
            · rcases h with ⟨h1, h2⟩
              right
              exact ⟨h1, h2⟩

/-! ## `merge_optstr` (fs.c, lines 390-428) -/

/-- Helper for `merge_optstr`: the C pattern
`rw += !mnt_optstr_remove_option(&p, name)` — attempt a removal; on
success (return 0) the string shrinks and the counter gains one,
otherwise (not-found or parse error, both non-zero returns) the string is
unchanged and the counter gains nothing. -/
def removeCount (p : List Char) (n : List Char) : List Char × Nat :=
  match mnt_optstr_remove_option p n with
  | .ok s => (s, 1)
  | _ => (p, 0)

/-- Shallow embedding of `merge_optstr` (fs.c:390).  `none` models a NULL
string.  The C writes `"%s,%s"` into a buffer three bytes past the start
and finally copies `"ro,"`/`"rw,"` (or `"ro"`/`"rw"` when nothing is
left) in front; the embedding builds the same final string directly. -/
def merge_optstr (vfs fs : Option (List Char)) : Option (List Char) :=
  match vfs, fs with
  | none, none => none
  | none, some f => some f
  | some v, none => some v
  | some v, some f =>
    if v = f then some v
    else
      let p0 := v ++ ',' :: f
      let r1 := removeCount p0 (("rw").data)
      let r2 := removeCount r1.1 (("rw").data)
      let rw := r1.2 + r2.2
      let r3 := if rw ≠ 2 then removeCount r2.1 (("ro").data) else (r2.1, 0)
      let r4 := if rw ≠ 2 ∧ r3.2 + rw < 2 then removeCount r3.1 (("ro").data) else (r3.1, 0)
      let ro := r3.2 + r4.2
      if r4.1.isEmpty then some (if ro > 0 then ("ro").data else ("rw").data)
      else some ((if ro > 0 then ("ro,").data else ("rw,").data) ++ r4.1)

/-- Shallow embedding of `mnt_fs_strdup_options` (fs.c:439): merge the
VFS and FS option strings, then append the userspace options (with a NULL
result treated as the empty string by the append). -/
def mnt_fs_strdup_options (vfs fsopts user : Option (List Char)) : Option (List Char) :=
  let res := merge_optstr vfs fsopts
  match user with
  | none => res
  | some u =>
    some (mnt_optstr_append_option (match res with | some r => r | none => []) u none)

/-! ### Token-level facts about counted removals -/

theorem countName_append (a b : List OptItem) (n : List Char) :
    countName (a ++ b) n = countName a n + countName b n := by
  simp [countName, List.countP_append]

theorem countName_nil_of_empty {n : List Char} : countName [] n = 0 := rfl

theorem removeFirstTok_none_of_count {ts : List OptItem} {n : List Char}
    (h : countName ts n = 0) : removeFirstTok ts n = none :=
  (firstNamed_none_iff ts n).mp ((countName_zero_iff ts n).mp h)

theorem removeFirstTok_some_of_count {ts : List OptItem} {n : List Char}
    (h : 1 ≤ countName ts n) : ∃ ts', removeFirstTok ts n = some ts' := by
  cases hrt : removeFirstTok ts n with
  | none =>
    have := (countName_zero_iff ts n).mpr ((firstNamed_none_iff ts n).mpr hrt)
    omega
  | some ts' => exact ⟨ts', rfl⟩

theorem removeFirstTok_count_self {ts : List OptItem} {n : List Char} {ts' : List OptItem}
    (h : removeFirstTok ts n = some ts') : countName ts' n + 1 = countName ts n := by
  induction ts generalizing ts' with
  | nil => simp [removeFirstTok] at h
  | cons t rest ih =>
    simp only [removeFirstTok] at h
    by_cases hn : t.name = n
    · rw [if_pos hn] at h
      simp only [Option.some.injEq] at h
      subst h
      simp [countName, List.countP_cons, hn]
    · rw [if_neg hn] at h
      cases hrt : removeFirstTok rest n with
      | none => rw [hrt] at h; simp at h
      | some rs =>
        rw [hrt] at h
        simp only [Option.map_some', Option.some.injEq] at h
        subst h
        have := ih hrt
        simp only [countName, List.countP_cons,
          show (t.name == n) = false from by simpa using hn] at *
        omega

theorem removeFirstTok_count_other {ts : List OptItem} {n : List Char} {ts' : List OptItem}
    (h : removeFirstTok ts n = some ts') {m : List Char} (hm : m ≠ n) :
    countName ts' m = countName ts m := by
  induction ts generalizing ts' with
  | nil => simp [removeFirstTok] at h
  | cons t rest ih =>
    simp only [removeFirstTok] at h
    by_cases hn : t.name = n
    · rw [if_pos hn] at h
      simp only [Option.some.injEq] at h
      subst h
      have : (t.name == m) = false := by
        simp only [beq_eq_false_iff_ne, ne_eq]
        rw [hn]
        exact fun hc => hm hc.symm
      simp [countName, List.countP_cons, this]
    · rw [if_neg hn] at h
      cases hrt : removeFirstTok rest n with
      | none => rw [hrt] at h; simp at h
      | some rs =>
        rw [hrt] at h
        simp only [Option.map_some', Option.some.injEq] at h
        subst h
        have hih := ih hrt
        simp only [countName] at hih
        simp [countName, List.countP_cons, hih]

theorem removeFirstTok_filter {ts : List OptItem} {n : List Char} {ts' : List OptItem}
    (h : removeFirstTok ts n = some ts') {p : OptItem → Bool}
    (hp : ∀ t : OptItem, t.name = n → p t = false) : ts'.filter p = ts.filter p := by
  induction ts generalizing ts' with
  | nil => simp [removeFirstTok] at h
  | cons t rest ih =>
    simp only [removeFirstTok] at h
    by_cases hn : t.name = n
    · rw [if_pos hn] at h
      simp only [Option.some.injEq] at h
      subst h
      simp [List.filter_cons, hp t hn]
    · rw [if_neg hn] at h
      cases hrt : removeFirstTok rest n with
      | none => rw [hrt] at h; simp at h
      | some rs =>
        rw [hrt] at h
        simp only [Option.map_some', Option.some.injEq] at h
        subst h
        simp [List.filter_cons, ih hrt]

def isFlagItem (t : OptItem) : Bool :=
  t.name == ("rw").data || t.name == ("ro").data

theorem filter_eq_self_of_no_flags {ts : List OptItem}
    (h1 : countName ts (("rw").data) = 0) (h2 : countName ts (("ro").data) = 0) :
    ts.filter (fun t => !(isFlagItem t)) = ts := by
  rw [List.filter_eq_self]
  intro t ht
  have k1 := List.countP_eq_zero.mp h1 t ht
  have k2 := List.countP_eq_zero.mp h2 t ht
  simp only [Bool.not_eq_true', isFlagItem]
  simp only at k1 k2
  simp [k1, k2]

/-- The counted-removal step on rendered well-formed lists. -/
theorem removeCount_render {n : List Char} (hn : WfName n) {ts : List OptItem}
    (hwf : ∀ x ∈ ts, WfItem x) :
    removeCount (renderOpts ts) n =
      (match removeFirstTok ts n with
       | some ts' => (renderOpts ts', 1)
       | none => (renderOpts ts, 0)) := by
  unfold removeCount
  rw [remove_option_render hn hwf]
  cases removeFirstTok ts n <;> rfl

theorem renderOpts_append {a b : List OptItem} (ha : a ≠ []) (hb : b ≠ []) :
    renderOpts (a ++ b) = renderOpts a ++ ',' :: renderOpts b := by
  induction a with
  | nil => exact absurd rfl ha
  | cons t rest ih =>
    cases hr : rest with
    | nil =>
      subst hr
      rw [List.singleton_append, renderOpts_cons_of_ne hb, renderOpts_cons_ne_nil]
      simp [List.append_assoc]
    | cons a2 l2 =>
      rw [hr] at ih
      have hrest : (a2 :: l2 : List OptItem) ≠ [] := by simp
      rw [show ((t :: a2 :: l2) ++ b) = t :: ((a2 :: l2) ++ b) from rfl,
        renderOpts_cons_of_ne (show ((a2 :: l2) ++ b : List OptItem) ≠ [] by simp),
        ih hrest, renderOpts_cons_of_ne hrest]
      simp [List.append_assoc]

theorem countName_ne_nil {ts : List OptItem} {n : List Char}
    (h : 1 ≤ countName ts n) : ts ≠ [] := by
  intro he
  subst he
  simp [countName] at h

theorem nonflag_of_name_rw : ∀ t : OptItem,
    t.name = ("rw").data → (!(isFlagItem t)) = false := by
  intro t ht
  simp [isFlagItem, ht]

theorem nonflag_of_name_ro : ∀ t : OptItem,
    t.name = ("ro").data → (!(isFlagItem t)) = false := by
  intro t ht
  simp [isFlagItem, ht]

theorem removeCount_step_some {n : List Char} (hn : WfName n) {ts : List OptItem}
    (hw : ∀ x ∈ ts, WfItem x) (h1 : 1 ≤ countName ts n) :
    ∃ ts', removeFirstTok ts n = some ts' ∧
      removeCount (renderOpts ts) n = (renderOpts ts', 1) := by
  obtain ⟨ts', hts'⟩ := removeFirstTok_some_of_count h1
  exact ⟨ts', hts', by rw [removeCount_render hn hw, hts']⟩

theorem removeCount_step_none {n : List Char} (hn : WfName n) {ts : List OptItem}
    (hw : ∀ x ∈ ts, WfItem x) (h0 : countName ts n = 0) :
    removeCount (renderOpts ts) n = (renderOpts ts, 0) := by
  rw [removeCount_render hn hw, removeFirstTok_none_of_count h0]

/-- Claim C1 (amended): `merge_optstr` on two distinct rendered option
lists, each carrying exactly one `rw`/`ro` flag token, concatenates the
two bodies with the flag tokens removed behind a single leading flag,
and that leading flag is `rw` exactly when *both* inputs carry `rw`
(otherwise `ro`).  The original claim's "read-only unless both inputs
contain rw" fails without the one-flag-per-input hypothesis: the C code
counts successful removals of `rw`, so two flag-free inputs merge to a
read-write string. -/
theorem C1_merge_optstr_flag_semantics
    (tv tf : List OptItem)
    (hwv : ∀ x ∈ tv, WfItem x) (hwtf : ∀ x ∈ tf, WfItem x)
    (hv1 : countName tv (("rw").data) + countName tv (("ro").data) = 1)
    (hf1 : countName tf (("rw").data) + countName tf (("ro").data) = 1)
    (hne : renderOpts tv ≠ renderOpts tf) :
    merge_optstr (some (renderOpts tv)) (some (renderOpts tf)) =
      some ((if countName tv (("rw").data) = 1 ∧ countName tf (("rw").data) = 1
              then ("rw").data else ("ro").data) ++
        (if ((tv ++ tf).filter (fun t => !(isFlagItem t))) = [] then []
         else ',' :: renderOpts ((tv ++ tf).filter (fun t => !(isFlagItem t))))) := by
  have hrw : WfName (("rw").data) := by decide
  have hro : WfName (("ro").data) := by decide
  have hnror : (("ro").data : List Char) ≠ ("rw").data := by decide
  have hnrwo : (("rw").data : List Char) ≠ ("ro").data := by decide
  have htv : tv ≠ [] := by intro h; subst h; simp [countName] at hv1
  have htf : tf ≠ [] := by intro h; subst h; simp [countName] at hf1
  have hw0 : ∀ x ∈ tv ++ tf, WfItem x := by
    intro x hx
    rcases List.mem_append.mp hx with h | h
    · exact hwv x h
    · exact hwtf x h
  have hcat : renderOpts tv ++ ',' :: renderOpts tf = renderOpts (tv ++ tf) :=
    (renderOpts_append htv htf).symm
  have hcrw : countName (tv ++ tf) (("rw").data)
      = countName tv (("rw").data) + countName tf (("rw").data) := countName_append ..
  have hcro : countName (tv ++ tf) (("ro").data)
      = countName tv (("ro").data) + countName tf (("ro").data) := countName_append ..
  have hcase : countName (tv ++ tf) (("rw").data) = 2 ∨
      countName (tv ++ tf) (("rw").data) = 1 ∨
      countName (tv ++ tf) (("rw").data) = 0 := by omega
  rcases hcase with hc | hc | hc
  · -- both inputs carry rw: two successful rw removals, no ro removal
    obtain ⟨t1, hm1, he1⟩ := removeCount_step_some hrw hw0 (by omega)
    have hw1 : ∀ x ∈ t1, WfItem x := fun x hx => hw0 x (removeFirstTok_mem hm1 x hx)
    have hc1rw := removeFirstTok_count_self hm1
    have hc1ro := removeFirstTok_count_other hm1 hnror
    obtain ⟨t2, hm2, he2⟩ := removeCount_step_some hrw hw1 (by omega)
    have hw2 : ∀ x ∈ t2, WfItem x := fun x hx => hw1 x (removeFirstTok_mem hm2 x hx)
    have hc2rw := removeFirstTok_count_self hm2
    have hc2ro := removeFirstTok_count_other hm2 hnror
    have hfilt : (tv ++ tf).filter (fun t => !(isFlagItem t)) = t2 := by
      rw [← removeFirstTok_filter hm1 nonflag_of_name_rw,
          ← removeFirstTok_filter hm2 nonflag_of_name_rw]
      exact filter_eq_self_of_no_flags (by omega) (by omega)
    simp only [merge_optstr]
    rw [if_neg hne, hcat]
    simp only [he1]
    simp only [he2]
    norm_num only [false_and, and_false, true_and, and_true, if_true, if_false]
    rw [if_pos (show countName tv (("rw").data) = 1 ∧ countName tf (("rw").data) = 1
      by constructor <;> omega)]
    rw [hfilt]
    by_cases ht2 : t2 = []
    · subst ht2
      simp [renderOpts]
    · have hre : renderOpts t2 ≠ [] := fun hcn => ht2 ((renderOpts_eq_nil_iff hw2).mp hcn)
      rw [if_neg ht2, if_neg (show ¬((renderOpts t2).isEmpty = true) by
        simp [List.isEmpty_iff, hre])]
      rfl
  · -- exactly one rw in the concatenation: one rw removal, one ro removal
    obtain ⟨t1, hm1, he1⟩ := removeCount_step_some hrw hw0 (by omega)
    have hw1 : ∀ x ∈ t1, WfItem x := fun x hx => hw0 x (removeFirstTok_mem hm1 x hx)
    have hc1rw := removeFirstTok_count_self hm1
    have hc1ro := removeFirstTok_count_other hm1 hnror
    have he2 := removeCount_step_none hrw hw1 (by omega)
    obtain ⟨t2, hm3, he3⟩ := removeCount_step_some hro hw1 (by omega)
    have hw2 : ∀ x ∈ t2, WfItem x := fun x hx => hw1 x (removeFirstTok_mem hm3 x hx)
    have hc3ro := removeFirstTok_count_self hm3
    have hc3rw := removeFirstTok_count_other hm3 hnrwo
    have hfilt : (tv ++ tf).filter (fun t => !(isFlagItem t)) = t2 := by
      rw [← removeFirstTok_filter hm1 nonflag_of_name_rw,
          ← removeFirstTok_filter hm3 nonflag_of_name_ro]
      exact filter_eq_self_of_no_flags (by omega) (by omega)
    simp only [merge_optstr]
    rw [if_neg hne, hcat]
    simp only [he1]
    simp only [he2]
    simp only [he3]
    norm_num only [false_and, and_false, true_and, and_true, if_true, if_false]
    rw [if_neg (show ¬(countName tv (("rw").data) = 1 ∧ countName tf (("rw").data) = 1)
      by intro hcc; omega)]
    rw [hfilt]
    by_cases ht2 : t2 = []
    · subst ht2
      simp [renderOpts]
    · have hre : renderOpts t2 ≠ [] := fun hcn => ht2 ((renderOpts_eq_nil_iff hw2).mp hcn)
      rw [if_neg ht2, if_neg (show ¬((renderOpts t2).isEmpty = true) by
        simp [List.isEmpty_iff, hre])]
      rfl
  · -- no rw anywhere: two successful ro removals
    have he1 := removeCount_step_none hrw hw0 (by omega)
    obtain ⟨t1, hm2, he2⟩ := removeCount_step_some hro hw0 (by omega)
    have hw1 : ∀ x ∈ t1, WfItem x := fun x hx => hw0 x (removeFirstTok_mem hm2 x hx)
    have hc2ro := removeFirstTok_count_self hm2
    have hc2rw := removeFirstTok_count_other hm2 hnrwo
    obtain ⟨t2, hm3, he3⟩ := removeCount_step_some hro hw1 (by omega)
    have hw2 : ∀ x ∈ t2, WfItem x := fun x hx => hw1 x (removeFirstTok_mem hm3 x hx)
    have hc3ro := removeFirstTok_count_self hm3
    have hc3rw := removeFirstTok_count_other hm3 hnrwo
    have hfilt : (tv ++ tf).filter (fun t => !(isFlagItem t)) = t2 := by
      rw [← removeFirstTok_filter hm2 nonflag_of_name_ro,
          ← removeFirstTok_filter hm3 nonflag_of_name_ro]
      exact filter_eq_self_of_no_flags (by omega) (by omega)
    simp only [merge_optstr]
    rw [if_neg hne, hcat]
    simp only [he1]
    simp only [he2]
    norm_num only [false_and, and_false, true_and, and_true, if_true, if_false]
    simp only [he3]
    norm_num only [false_and, and_false, true_and, and_true, if_true, if_false]
    rw [if_neg (show ¬(countName tv (("rw").data) = 1 ∧ countName tf (("rw").data) = 1)
      by intro hcc; omega)]
    rw [hfilt]
    by_cases ht2 : t2 = []
    · subst ht2
      simp [renderOpts]
    · have hre : renderOpts t2 ≠ [] := fun hcn => ht2 ((renderOpts_eq_nil_iff hw2).mp hcn)
      rw [if_neg ht2, if_neg (show ¬((renderOpts t2).isEmpty = true) by
        simp [List.isEmpty_iff, hre])]
      rfl

/-- Claim C1 counterexample: neither the string "noexec" nor the string
"journal=update" contains an `rw` token, yet `merge_optstr` produces a
string leading with `rw,` rather than `ro,` — the merge is not
"read-only unless both inputs contain rw". -/
theorem C1_merge_optstr_counterexample :
    merge_optstr (some (("noexec").data)) (some (("journal=update").data)) =
      some (("rw,noexec,journal=update").data) ∧
    (("rw,noexec,journal=update").data).take 3 ≠ ("ro,").data := by
  constructor
  · decide
  · decide

/-- Witness for the amended C1 theorem at the spec's own example: merging
"rw,noexec" with "ro,journal=update" yields "ro,noexec,journal=update". -/
theorem C1_merge_optstr_flag_semantics_witness :
    merge_optstr (some (("rw,noexec").data)) (some (("ro,journal=update").data)) =
      some (("ro,noexec,journal=update").data) := by
  have h := C1_merge_optstr_flag_semantics
    [⟨("rw").data, none⟩, ⟨("noexec").data, none⟩]
    [⟨("ro").data, none⟩, ⟨("journal").data, some (("update").data)⟩]
    (by decide) (by decide) (by decide) (by decide) (by decide)
  revert h
  decide

/-! ## Claim-level results for the option-string functions -/

theorem removeFirstTok_append_of_absent {ts : List OptItem} {n : List Char}
    (h : countName ts n = 0) (x : OptItem) (hx : x.name = n) :
    removeFirstTok (ts ++ [x]) n = some ts := by
  induction ts with
  | nil => simp [removeFirstTok, hx]
  | cons t rest ih =>
    simp only [countName, List.countP_cons] at h
    have hname : ¬(t.name = n) := by
      intro hc
      simp [hc] at h
    have hrest : countName rest n = 0 := by
      simp only [countName]
      omega
    rw [List.cons_append]
    simp only [removeFirstTok, if_neg hname, ih hrest, Option.map_some']

theorem remove_append_of_absent {n : List Char} (hn : WfName n) {ts : List OptItem}
    (hwf : ∀ x ∈ ts, WfItem x) (hcnt : countName ts n = 0)
    {v' : Option (List Char)} (hv' : ∀ w, v' = some w → (',' ∉ w ∧ '"' ∉ w)) :
    mnt_optstr_remove_option (renderOpts (ts ++ [⟨n, v'⟩])) n =
      .ok (renderOpts ts) := by
  have hwf2 : ∀ x ∈ ts ++ [(⟨n, v'⟩ : OptItem)], WfItem x := by
    intro x hx
    rcases List.mem_append.mp hx with h | h
    · exact hwf x h
    · have hx2 : x = (⟨n, v'⟩ : OptItem) := by simpa using h
      subst hx2
      exact ⟨hn.1, hn.2.1, hn.2.2.1, hn.2.2.2, hv'⟩
  rw [remove_option_render hn hwf2,
    removeFirstTok_append_of_absent hcnt _ rfl]

/-- Claim C4 (amended): appending the option `(n, v)` to a rendered
option list that contains no option named `n` and then removing the
first option named `n` returns the original string exactly.  The
original claim's quantification over strings that already contain an
option named `n` fails, because `mnt_optstr_remove_option` removes the
*first* occurrence, not the appended one. -/
theorem C4_append_remove_roundtrip
    (n : List Char) (hn : WfName n) (ts : List OptItem) (hwf : ∀ x ∈ ts, WfItem x)
    (hcnt : countName ts n = 0)
    (v : Option (List Char)) (hv : ∀ w, v = some w → (',' ∉ w ∧ '"' ∉ w)) :
    mnt_optstr_remove_option (mnt_optstr_append_option (renderOpts ts) n v) n =
      .ok (renderOpts ts) := by
  cases v with
  | none =>
    rw [append_option_render hwf n none]
    exact remove_append_of_absent hn hwf hcnt (fun w hw => Option.noConfusion hw)
  | some vv =>
    rw [append_option_render hwf n (some vv)]
    rw [show (⟨n, match (some vv : Option (List Char)) with
        | some w => if w.isEmpty = true then none else some w
        | none => none⟩ : OptItem) =
      (⟨n, if vv.isEmpty = true then none else some vv⟩ : OptItem) from rfl]
    cases hvv : vv.isEmpty with
    | true =>
      rw [if_pos (show (true = true) from rfl)]
      exact remove_append_of_absent hn hwf hcnt (fun w hw => Option.noConfusion hw)
    | false =>
      rw [if_neg (show ¬(false = true) by simp)]
      exact remove_append_of_absent hn hwf hcnt hv

/-- Claim C4 counterexample: for a string that already contains an
option named `a`, appending `a` and removing `a` does not return the
original string — the removal takes the first occurrence. -/
theorem C4_append_remove_counterexample :
    mnt_optstr_append_option (("a,x").data) (("a").data) none = ("a,x,a").data ∧
    mnt_optstr_remove_option (("a,x,a").data) (("a").data) = .ok (("x,a").data) ∧
    (("x,a").data : List Char) ≠ ("a,x").data := by
  refine ⟨by decide, by decide, by decide⟩

/-- Witness for the amended C4 theorem: appending `a=1` to "x" and
removing `a` returns "x". -/
theorem C4_append_remove_roundtrip_witness :
    mnt_optstr_remove_option
        (mnt_optstr_append_option (("x").data) (("a").data) (some (("1").data)))
        (("a").data) = .ok (("x").data) := by
  have h := C4_append_remove_roundtrip (("a").data) (by decide)
    [⟨("x").data, none⟩] (by decide) (by decide) (some (("1").data)) (by decide)
  revert h
  decide

/-- Claim C5 (amended): `mnt_optstr_set_option` with a non-NULL value
replaces the value of the *first* option named `n` in place — for every
new-value length, not only the equal-length case; the found option never
moves to the end of the string.  When `n` is absent the option is
appended. -/
theorem C5_set_option_in_place
    (n : List Char) (hn : WfName n) (ts : List OptItem) (hwf : ∀ x ∈ ts, WfItem x)
    (vv : List Char) :
    (∀ t0, firstNamed ts n = some t0 →
      mnt_optstr_set_option (renderOpts ts) n (some vv) =
        .ok (renderOpts (replaceFirstVal ts n (some vv)))) ∧
    (countName ts n = 0 →
      mnt_optstr_set_option (renderOpts ts) n (some vv) =
        .ok (mnt_optstr_append_option (renderOpts ts) n (some vv))) := by
  constructor
  · intro t0 hfr
    cases hold : t0.value with
    | none => exact set_option_insert_render hn hwf hfr hold vv
    | some oldv => exact set_option_replace_render hn hwf hfr hold vv
  · intro hcnt
    exact set_option_notfound_render hn hwf hcnt _

/-- Claim C5 counterexample: setting `a` to the different-length value
"yyy" in "a=xx,b" rewrites the value in place ("a=yyy,b"); the option
does not move to the end of the string ("b,a=yyy"). -/
theorem C5_set_option_counterexample :
    mnt_optstr_set_option (("a=xx,b").data) (("a").data) (some (("yyy").data)) =
      .ok (("a=yyy,b").data) ∧
    (("a=yyy,b").data : List Char) ≠ ("b,a=yyy").data := by
  refine ⟨by decide, by decide⟩

/-- Witness for the amended C5 theorem at a concrete input with a
different-length replacement value. -/
theorem C5_set_option_in_place_witness :
    mnt_optstr_set_option (("a=xx,b").data) (("a").data) (some (("z").data)) =
      .ok (("a=z,b").data) := by
  have h := (C5_set_option_in_place (("a").data) (by decide)
      [⟨("a").data, some (("xx").data)⟩, ⟨("b").data, none⟩] (by decide)
      (("z").data)).1 ⟨("a").data, some (("xx").data)⟩ rfl
  revert h
  decide

/-! ## Claim-level results for the parser (C6) -/

theorem parse_error_iff (cs : List Char) :
    mnt_optstr_parse_next cs = .error ↔ ∃ rs, cs = ',' :: rs := by
  constructor
  · intro h
    cases hsc : scanOpt cs false with
    | atEnd => simp [mnt_optstr_parse_next, hsc] at h
    | comma it rs =>
      simp only [mnt_optstr_parse_next, hsc] at h
      cases hit : it.isEmpty with
      | false =>
        rw [hit] at h
        simp only [Bool.false_eq_true, if_false] at h
        cases hsp : splitEq it false <;> rw [hsp] at h <;> simp at h
      | true =>
        have hnil : it = [] := List.isEmpty_iff.mp hit
        subst hnil
        exact ⟨rs, by simpa using scanOpt_comma_decomp hsc⟩
    | last it =>
      simp only [mnt_optstr_parse_next, hsc] at h
      cases hsp : splitEq it false <;> rw [hsp] at h <;> simp at h
  · rintro ⟨rs, rfl⟩
    unfold mnt_optstr_parse_next
    rw [show scanOpt (',' :: rs) false = .comma [] rs from rfl]
    rfl

theorem parse_done_iff (cs : List Char) :
    mnt_optstr_parse_next cs = .done ↔ scanOpt cs false = .atEnd := by
  constructor
  · intro h
    cases hsc : scanOpt cs false with
    | atEnd => rfl
    | comma it rs =>
      simp only [mnt_optstr_parse_next, hsc] at h
      cases hit : it.isEmpty with
      | true => rw [hit] at h; simp at h
      | false =>
        rw [hit] at h
        simp only [Bool.false_eq_true, if_false] at h
        cases hsp : splitEq it false <;> rw [hsp] at h <;> simp at h
    | last it =>
      simp only [mnt_optstr_parse_next, hsc] at h
      cases hsp : splitEq it false <;> rw [hsp] at h <;> simp at h
  · intro h
    simp only [mnt_optstr_parse_next, h]

/-- Claim C6 (amended): `mnt_optstr_parse_next` fails with `-EINVAL`
exactly when the item at the cursor is empty, i.e. when the string
starts with `','`; it reports end-of-string exactly when the string is
empty *or* when the scan runs off the end inside an open quoted block
without having met an unquoted `','` — a separator inside an
unterminated quote therefore yields the end indicator, not an error;
and on a well-formed rendered option list it returns the first item's
name and value and advances the cursor past the separator to the
remaining items. -/
theorem C6_parse_next_outcomes :
    (∀ cs : List Char, mnt_optstr_parse_next cs = .error ↔ ∃ rs, cs = ',' :: rs) ∧
    (∀ cs : List Char, mnt_optstr_parse_next cs = .done ↔
      (cs = [] ∨ (quoteEnd cs false = true ∧ hasUnquotedComma cs false = false))) ∧
    (∀ (t : OptItem) (ts : List OptItem), WfItem t → (∀ x ∈ ts, WfItem x) →
      mnt_optstr_parse_next (renderOpts (t :: ts)) =
        .next t.name t.value (renderOpts ts)) := by
  refine ⟨parse_error_iff, ?_, ?_⟩
  · intro cs
    rw [parse_done_iff, scanOpt_atEnd_iff]
  · intro t ts ht hts
    exact parse_next_render ts ht

/-- Claim C6 counterexample: on the string `a="1,2` the separator lies
inside an unterminated quoted block, yet the parser reports the
end-of-string indicator (C return value 1) for a non-empty string
instead of a malformed-option error. -/
theorem C6_parse_next_counterexample :
    mnt_optstr_parse_next (("a=\"1,2").data) = .done ∧
    (("a=\"1,2").data : List Char) ≠ [] := by
  refine ⟨by decide, by decide⟩

/-- Witness for the amended C6 theorem: parsing "ro,a" returns the item
`ro` with no value and advances the cursor to "a". -/
theorem C6_parse_next_outcomes_witness :
    mnt_optstr_parse_next (("ro,a").data) =
      .next (("ro").data) none (("a").data) := by
  have h := C6_parse_next_outcomes.2.2 ⟨("ro").data, none⟩ [⟨("a").data, none⟩]
    (by decide) (by decide)
  revert h
  decide

/-! ## Mount entries: `fs.c` setters (C2, C7)

A mount entry is modelled with the fields the verified functions touch:
`source`, `tagname`, `tagval`, `target`, `fstype` (C strings or NULL) and
the `flags` bitset. -/

structure MntFs where
  source : Option (List Char)
  tagname : Option (List Char)
  tagval : Option (List Char)
  target : Option (List Char)
  fstype : Option (List Char)
  flags : Nat
deriving DecidableEq, Repr

/-- mountP.h:160 -/
def MNT_FS_PSEUDO : Nat := 2
/-- mountP.h:161 -/
def MNT_FS_NET : Nat := 4
/-- mountP.h:162 -/
def MNT_FS_SWAP : Nat := 8

/-- `flags &= ~mask` on the Nat bitset model. -/
def clearFlag (f m : Nat) : Nat := f ^^^ (f &&& m)

/-- Shallow embedding of `__mnt_fs_set_fstype_ptr` (fs.c:326).  The
classifiers `mnt_fstype_is_pseudofs` / `mnt_fstype_is_netfs` live in
`utils.c`, which is not part of the staged sources, so they are abstract
boolean parameters.  Faithful to the C: only `MNT_FS_PSEUDO` and
`MNT_FS_NET` are cleared before re-deriving; `MNT_FS_SWAP` is never
cleared. -/
def __mnt_fs_set_fstype_ptr (isPseudo isNet : List Char → Bool)
    (fs : MntFs) (fstype : Option (List Char)) : MntFs :=
  let f0 := clearFlag fs.flags MNT_FS_PSEUDO
  let f1 := clearFlag f0 MNT_FS_NET
  let f2 := match fstype with
    | none => f1
    | some t =>
      if isPseudo t then f1 ||| MNT_FS_PSEUDO
      else if isNet t then f1 ||| MNT_FS_NET
      else if t = ("swap").data then f1 ||| MNT_FS_SWAP
      else f1
  { fs with fstype := fstype, flags := f2 }

def splitFirstEq : List Char → Option (List Char × List Char)
  | [] => none
  | c :: rest =>
    if c = '=' then some ([], rest)
    else (splitFirstEq rest).map (fun p => (c :: p.1, p.2))

def recognizedTag (n : List Char) : Bool :=
  n == ("LABEL").data || n == ("UUID").data ||
    n == ("PARTLABEL").data || n == ("PARTUUID").data

/-- Modelled from the spec: `blkid_parse_tag_string` (an external blkid
routine, not part of the staged sources) splits `NAME=VALUE` at the
first `'='` and succeeds exactly when NAME is one of the recognized tag
names — the spec's closed set LABEL, UUID, PARTLABEL, PARTUUID. -/
def blkid_parse_tag_string (s : List Char) : Option (List Char × List Char) :=
  match splitFirstEq s with
  | none => none
  | some (n, v) => if recognizedTag n then some (n, v) else none

/-- Shallow embedding of `__mnt_fs_set_source_ptr` (fs.c:134): `"none"`
becomes a NULL source; a string containing `'='` must parse as a tag,
else the call fails (`-1`, modelled as `none`) leaving the entry
untouched; then the *raw* source, the tag name and the tag value are all
stored. -/
def __mnt_fs_set_source_ptr (fs : MntFs) (source : Option (List Char)) :
    Option MntFs :=
  let source := if source = some (("none").data) then none else source
  match source with
  | none => some { fs with source := none, tagname := none, tagval := none }
  | some s =>
    if '=' ∈ s then
      match blkid_parse_tag_string s with
      | none => none
      | some (t, v) =>
        some { fs with source := some s, tagname := some t, tagval := some v }
    else some { fs with source := some s, tagname := none, tagval := none }

/-- Shallow embedding of `mnt_fs_get_srcpath` (fs.c:109): NULL whenever
the entry carries a tag, the raw source otherwise. -/
def mnt_fs_get_srcpath (fs : MntFs) : Option (List Char) :=
  match fs.tagname with
  | some _ => none
  | none => fs.source

/-- Claim C2: the spec's invariant — the three fs_type-derived flag bits
are mutually exclusive and always reflect the current fs_type — does not
hold in the code: `__mnt_fs_set_fstype_ptr` clears `MNT_FS_PSEUDO` and
`MNT_FS_NET` before re-deriving, but never clears `MNT_FS_SWAP`.
Setting fstype to "swap" and then to "proc" (with any classifier that
calls "proc" a pseudo filesystem and "swap" neither pseudo nor net)
leaves both the swap and the pseudo bit set while the entry's fstype is
"proc". -/
theorem C2_fstype_flags_not_exclusive :
    (__mnt_fs_set_fstype_ptr (fun t => t == ("proc").data) (fun t => false)
        (__mnt_fs_set_fstype_ptr (fun t => t == ("proc").data) (fun t => false)
          ⟨none, none, none, none, none, 0⟩ (some (("swap").data)))
        (some (("proc").data))).fstype = some (("proc").data) ∧
    (__mnt_fs_set_fstype_ptr (fun t => t == ("proc").data) (fun t => false)
        (__mnt_fs_set_fstype_ptr (fun t => t == ("proc").data) (fun t => false)
          ⟨none, none, none, none, none, 0⟩ (some (("swap").data)))
        (some (("proc").data))).flags &&& MNT_FS_PSEUDO ≠ 0 ∧
    (__mnt_fs_set_fstype_ptr (fun t => t == ("proc").data) (fun t => false)
        (__mnt_fs_set_fstype_ptr (fun t => t == ("proc").data) (fun t => false)
          ⟨none, none, none, none, none, 0⟩ (some (("swap").data)))
        (some (("proc").data))).flags &&& MNT_FS_SWAP ≠ 0 := by
  refine ⟨by decide, by decide, by decide⟩

/-- Claim C7 (amended): the literal "none" clears source and tag pair; a
source string of the form TAG=VALUE with a recognized tag name fills the
tag pair but *retains* the raw string in the entry's `source` field (the
claim's "source is cleared" holds only at the accessor level: the
srcpath accessor reports NULL whenever a tag name is set); any other
string without `'='` sets the source and clears the tag pair. -/
theorem C7_source_tag_exclusive (fs : MntFs) (s : List Char) :
    (__mnt_fs_set_source_ptr fs (some (("none").data)) =
      some { fs with source := none, tagname := none, tagval := none }) ∧
    (∀ t v, s ≠ ("none").data → '=' ∈ s → blkid_parse_tag_string s = some (t, v) →
      __mnt_fs_set_source_ptr fs (some s) =
        some { fs with source := some s, tagname := some t, tagval := some v } ∧
      mnt_fs_get_srcpath
        { fs with source := some s, tagname := some t, tagval := some v } = none) ∧
    (s ≠ ("none").data → '=' ∉ s →
      __mnt_fs_set_source_ptr fs (some s) =
        some { fs with source := some s, tagname := none, tagval := none }) := by
  refine ⟨?_, ?_, ?_⟩
  · simp [__mnt_fs_set_source_ptr]
  · intro t v hnone heq hparse
    have hns : (some s = some (("none").data)) = False :=
      eq_false (fun hc => hnone (by injection hc))
    constructor
    · simp only [__mnt_fs_set_source_ptr, hns, if_false, heq, if_true, hparse]
    · simp [mnt_fs_get_srcpath]
  · intro hnone heq
    have hns : (some s = some (("none").data)) = False :=
      eq_false (fun hc => hnone (by injection hc))
    simp only [__mnt_fs_set_source_ptr, hns, if_false, heq, if_true]

/-- Claim C7 counterexample: after setting the source of a fresh entry
to "LABEL=root", the tag pair is filled yet the `source` field still
holds the raw string — it is not cleared as the claim states. -/
theorem C7_source_tag_counterexample :
    __mnt_fs_set_source_ptr ⟨none, none, none, none, none, 0⟩
        (some (("LABEL=root").data)) =
      some ⟨some (("LABEL=root").data), some (("LABEL").data),
        some (("root").data), none, none, 0⟩ ∧
    (some (("LABEL=root").data) : Option (List Char)) ≠ none := by
  refine ⟨by decide, by decide⟩

/-- Witness for the amended C7 theorem at the entry-and-string input
(fresh entry, "LABEL=root"). -/
theorem C7_source_tag_exclusive_witness :
    __mnt_fs_set_source_ptr ⟨none, none, none, none, none, 0⟩
        (some (("LABEL=root").data)) =
      some ⟨some (("LABEL=root").data), some (("LABEL").data),
        some (("root").data), none, none, 0⟩ ∧
    mnt_fs_get_srcpath ⟨some (("LABEL=root").data), some (("LABEL").data),
        some (("root").data), none, none, 0⟩ = none := by
  have h := (C7_source_tag_exclusive ⟨none, none, none, none, none, 0⟩
      (("LABEL=root").data)).2.1 (("LABEL").data) (("root").data)
      (by decide) (by decide) (by decide)
  revert h
  decide

/-! ## Mount tables: `tab.c` lookups (C3, C10)

The resolver cache is an external collaborator (spec section F:
"specified at interface only"), so it is modelled as a record of
abstract functions; `mnt_resolve_path` returning `none` models a NULL
(canonicalization failure). -/

inductive ReadTagsRes where
  | ok : ReadTagsRes
  | eaccess : ReadTagsRes
  | failed : ReadTagsRes
deriving DecidableEq, Repr

structure MntCache where
  resolvePath : List Char → Option (List Char)
  readTags : List Char → ReadTagsRes
  deviceHasTag : List Char → List Char → Option (List Char) → Bool
  resolveTag : List Char → Option (List Char) → Option (List Char)

structure MntTab where
  ents : List MntFs
  cache : Option MntCache

inductive MntIterDir where
  | forward : MntIterDir
  | backward : MntIterDir
deriving DecidableEq, Repr

/-- The order in which `mnt_tab_next_fs` yields the entries. -/
def iterOrder (tb : MntTab) (d : MntIterDir) : List MntFs :=
  match d with
  | .forward => tb.ents
  | .backward => tb.ents.reverse

/-- Modelled from the spec: `streq_except_trailing_slash` (defined in a
shared header outside the staged sources) — C-string equality ignoring a
single trailing slash (kept on the one-character string "/"); NULL is
equal only to NULL. -/
def stripTrailSlash (s : List Char) : List Char :=
  if 1 < s.length ∧ s.getLast? = some '/' then s.dropLast else s

def streq_except_trailing_slash (a b : Option (List Char)) : Bool :=
  match a, b with
  | none, none => true
  | some x, some y => stripTrailSlash x == stripTrailSlash y
  | _, _ => false

/-- Shallow embedding of `mnt_fs_streq_target` (fs.c:196). -/
def mnt_fs_streq_target (fs : MntFs) (path : Option (List Char)) : Bool :=
  streq_except_trailing_slash fs.target path

/-- Shallow embedding of `mnt_fs_streq_srcpath` (fs.c:212): pseudo
filesystems compare exactly, everything else ignores a trailing
slash. -/
def mnt_fs_streq_srcpath (fs : MntFs) (path : Option (List Char)) : Bool :=
  let p := mnt_fs_get_srcpath fs
  if fs.flags &&& MNT_FS_PSEUDO = 0 then
    streq_except_trailing_slash p path
  else
    match p, path with
    | none, none => true
    | some x, some y => x == y
    | _, _ => false

/-- Shallow embedding of `mnt_tab_find_target` (tab.c:419): pass 1
compares the raw input against the stored targets, pass 2 the
canonicalized input against the stored targets, pass 3 the
canonicalized input against the canonicalized stored target — the third
pass skips an entry with no target, without the `MNT_FS_SWAP` flag, or
with target exactly "/", and an entry whose target fails to resolve
(NULL) is treated as not matching. -/
def mnt_tab_find_target (tb : MntTab) (path : List Char) (d : MntIterDir) :
    Option MntFs :=
  let ents := iterOrder tb d
  match ents.find? (fun fs => mnt_fs_streq_target fs (some path)) with
  | some fs => some fs
  | none =>
    match tb.cache with
    | none => none
    | some c =>
      match c.resolvePath path with
      | none => none
      | some cn =>
        match ents.find? (fun fs => mnt_fs_streq_target fs (some cn)) with
        | some fs => some fs
        | none =>
          ents.find? (fun fs =>
            match fs.target with
            | none => false
            | some tgt =>
              if fs.flags &&& MNT_FS_SWAP = 0 then false
              else if tgt = [ '/' ] then false
              else
                match c.resolvePath tgt with
                | none => false
                | some p => p == cn)

/-- The tag-matching scan of `mnt_tab_find_srcpath`'s third pass when
the cache has the device's tags (`mnt_cache_read_tags` returned 0). -/
def tagScanCached (c : MntCache) (cn : List Char) (fs : MntFs) : Bool :=
  match fs.tagname with
  | none => false
  | some t => c.deviceHasTag cn t fs.tagval

/-- The tag-matching scan of `mnt_tab_find_srcpath`'s third pass in the
EACCES fallback (tags evaluated entry by entry via udev symlinks). -/
def tagScanUdev (c : MntCache) (cn : List Char) (fs : MntFs) : Bool :=
  match fs.tagname with
  | none => false
  | some t =>
    match c.resolveTag t fs.tagval with
    | none => false
    | some x => x == cn

/-- The canonicalized-stored-path scan of `mnt_tab_find_srcpath`'s last
pass: network/pseudo entries and tag-form entries are skipped, a stored
path that fails to resolve does not match. -/
def canonSrcScan (c : MntCache) (cn : List Char) (fs : MntFs) : Bool :=
  if fs.flags &&& (MNT_FS_NET ||| MNT_FS_PSEUDO) ≠ 0 then false
  else
    match mnt_fs_get_srcpath fs with
    | none => false
    | some p =>
      match c.resolvePath p with
      | none => false
      | some cp => cp == cn

/-- Shallow embedding of `mnt_tab_find_srcpath` (tab.c:481).  `ntags`
counts the tag-form entries (those whose srcpath accessor yields NULL);
the C counts them during the first scan, which runs to completion
whenever the later passes are reached.  Pass order as in the C: raw,
canonicalized input against raw stored paths (only when some entry is
path-form), evaluated tags (only when some entry is tag-form),
canonicalized input against canonicalized stored paths. -/
def mnt_tab_find_srcpath (tb : MntTab) (path : List Char) (d : MntIterDir) :
    Option MntFs :=
  let ents := iterOrder tb d
  let ntags := (ents.filter (fun fs => mnt_fs_get_srcpath fs = none)).length
  match ents.find? (fun fs => mnt_fs_streq_srcpath fs (some path)) with
  | some fs => some fs
  | none =>
    match tb.cache with
    | none => none
    | some c =>
      match c.resolvePath path with
      | none => none
      | some cn =>
        match (if ntags < ents.length then
            ents.find? (fun fs => mnt_fs_streq_srcpath fs (some cn))
          else none) with
        | some fs => some fs
        | none =>
          match (if ntags ≠ 0 then
              match c.readTags cn with
              | .ok => ents.find? (tagScanCached c cn)
              | .eaccess => ents.find? (tagScanUdev c cn)
              | .failed => none
            else none) with
          | some fs => some fs
          | none =>
            if ntags ≤ ents.length then ents.find? (canonSrcScan c cn)
            else none

/-- Specification-side rendering of the amended C3 claim: the
by-source-path lookup performs its passes in the order raw equality,
canonicalized input versus raw stored path, resolved tag,
canonicalized input versus canonicalized stored path — with no
entry-count guards — and passes 2-4 require a cache and a
canonicalizable input. -/
def findSrcpathSpec (tb : MntTab) (path : List Char) (d : MntIterDir) :
    Option MntFs :=
  let ents := iterOrder tb d
  match ents.find? (fun fs => mnt_fs_streq_srcpath fs (some path)) with
  | some fs => some fs
  | none =>
    match tb.cache with
    | none => none
    | some c =>
      match c.resolvePath path with
      | none => none
      | some cn =>
        match ents.find? (fun fs => mnt_fs_streq_srcpath fs (some cn)) with
        | some fs => some fs
        | none =>
          match (match c.readTags cn with
            | .ok => ents.find? (tagScanCached c cn)
            | .eaccess => ents.find? (tagScanUdev c cn)
            | .failed => none) with
          | some fs => some fs
          | none => ents.find? (canonSrcScan c cn)

theorem streq_srcpath_none {fs : MntFs} (h : mnt_fs_get_srcpath fs = none)
    (x : List Char) : mnt_fs_streq_srcpath fs (some x) = false := by
  simp only [mnt_fs_streq_srcpath, h]
  split <;> rfl

theorem tagname_none_of_srcpath_some {fs : MntFs} {p : List Char}
    (h : mnt_fs_get_srcpath fs = some p) : fs.tagname = none := by
  unfold mnt_fs_get_srcpath at h
  cases ht : fs.tagname with
  | none => rfl
  | some t => rw [ht] at h; simp at h

theorem filter_len_full {α : Type} {p : α → Bool} :
    ∀ {l : List α}, (l.filter p).length = l.length → ∀ a ∈ l, p a = true := by
  intro l
  induction l with
  | nil => simp
  | cons x xs ih =>
    intro h a ha
    cases hx : p x with
    | true =>
      simp only [List.filter_cons, hx, if_true, List.length_cons] at h
      rcases List.mem_cons.mp ha with rfl | hm
      · exact hx
      · exact ih (by omega) a hm
    | false =>
      have hle := List.length_filter_le p xs
      simp only [List.filter_cons, hx, Bool.false_eq_true, if_false,
        List.length_cons] at h
      omega

/-- Claim C3 (amended): `mnt_tab_find_srcpath` equals the clean
four-pass specification whose order is raw equality, canonicalized
input versus raw stored paths, *resolved tags*, and only then
canonicalized input versus canonicalized stored paths; passes 2-4 are
skipped when the table has no cache or the input does not canonicalize.
The claim's original order (canonicalized-stored-path before resolved
tag) is wrong: the code runs the tag pass first. -/
theorem C3_srcpath_pass_order (tb : MntTab) (path : List Char) (d : MntIterDir) :
    mnt_tab_find_srcpath tb path d = findSrcpathSpec tb path d := by
  simp only [mnt_tab_find_srcpath, findSrcpathSpec]
  cases h1 : (iterOrder tb d).find? (fun fs => mnt_fs_streq_srcpath fs (some path)) with
  | some fs => rfl
  | none =>
    dsimp only
    cases hc : tb.cache with
    | none => rfl
    | some c =>
      dsimp only
      cases hr : c.resolvePath path with
      | none => rfl
      | some cn =>
        dsimp only
        by_cases hlt : ((iterOrder tb d).filter
            (fun fs => mnt_fs_get_srcpath fs = none)).length < (iterOrder tb d).length
        · rw [if_pos hlt]
          cases h2 : (iterOrder tb d).find? (fun fs => mnt_fs_streq_srcpath fs (some cn)) with
          | some fs => rfl
          | none =>
            dsimp only
            by_cases hn0 : ((iterOrder tb d).filter
                (fun fs => mnt_fs_get_srcpath fs = none)).length = 0
            · rw [if_neg (by omega)]
              dsimp only
              have hall : ∀ fs ∈ iterOrder tb d, fs.tagname = none := by
                intro fs hfs
                have hfil : (iterOrder tb d).filter
                    (fun fs => mnt_fs_get_srcpath fs = none) = [] :=
                  List.length_eq_zero.mp hn0
                have hni := List.filter_eq_nil.mp hfil fs hfs
                cases hp : mnt_fs_get_srcpath fs with
                | none => exact absurd (by simp [hp]) hni
                | some p => exact tagname_none_of_srcpath_some hp
              have hok : (iterOrder tb d).find? (tagScanCached c cn) = none :=
                List.find?_eq_none.mpr (fun fs hfs => by
                  simp [tagScanCached, hall fs hfs])
              have hud : (iterOrder tb d).find? (tagScanUdev c cn) = none :=
                List.find?_eq_none.mpr (fun fs hfs => by
                  simp [tagScanUdev, hall fs hfs])
              cases hrt : c.readTags cn with
              | ok =>
                rw [hok]
                dsimp only
                rw [if_pos (List.length_filter_le _ _)]
              | eaccess =>
                rw [hud]
                dsimp only
                rw [if_pos (List.length_filter_le _ _)]
              | failed =>
                dsimp only
                rw [if_pos (List.length_filter_le _ _)]
            · rw [if_pos hn0]
              cases hrt : c.readTags cn with
              | ok =>
                cases h3 : (iterOrder tb d).find? (tagScanCached c cn) with
                | some fs => rfl
                | none =>
                  dsimp only
                  rw [if_pos (List.length_filter_le _ _)]
              | eaccess =>
                cases h3 : (iterOrder tb d).find? (tagScanUdev c cn) with
                | some fs => rfl
                | none =>
                  dsimp only
                  rw [if_pos (List.length_filter_le _ _)]
              | failed =>
                dsimp only
                rw [if_pos (List.length_filter_le _ _)]
        · rw [if_neg hlt]
          dsimp only
          have hlen : ((iterOrder tb d).filter
              (fun fs => mnt_fs_get_srcpath fs = none)).length = (iterOrder tb d).length := by
            have := List.length_filter_le
              (fun fs => decide (mnt_fs_get_srcpath fs = none)) (iterOrder tb d)
            omega
          have hall : ∀ fs ∈ iterOrder tb d, mnt_fs_get_srcpath fs = none := by
            intro fs hfs
            have := filter_len_full hlen fs hfs
            simpa using this
          have h2 : (iterOrder tb d).find? (fun fs => mnt_fs_streq_srcpath fs (some cn)) = none :=
            List.find?_eq_none.mpr (fun fs hfs => by
              simp [streq_srcpath_none (hall fs hfs) cn])
          rw [h2]
          dsimp only
          by_cases hn0 : ((iterOrder tb d).filter
              (fun fs => mnt_fs_get_srcpath fs = none)).length = 0
          · have hnil : iterOrder tb d = [] := List.length_eq_zero.mp (by omega)
            rw [if_neg (by omega)]
            dsimp only
            rw [hnil]
            cases hrt : c.readTags cn <;> rfl
          · rw [if_pos hn0]
            cases hrt : c.readTags cn with
            | ok =>
              cases h3 : (iterOrder tb d).find? (tagScanCached c cn) with
              | some fs => rfl
              | none =>
                dsimp only
                rw [if_pos (List.length_filter_le _ _)]
            | eaccess =>
              cases h3 : (iterOrder tb d).find? (tagScanUdev c cn) with
              | some fs => rfl
              | none =>
                dsimp only
                rw [if_pos (List.length_filter_le _ _)]
            | failed =>
              dsimp only
              rw [if_pos (List.length_filter_le _ _)]

def cacheC3 : MntCache :=
  ⟨fun p => if p = ("/dev/x").data then some (("/dev/sda1").data)
    else if p = ("/dev/other").data then some (("/dev/sda1").data)
    else none,
   fun _ => .ok,
   fun dev t v => dev == ("/dev/sda1").data && t == ("LABEL").data &&
     v == some (("root").data),
   fun _ _ => none⟩

/-- A path-form entry whose stored source canonicalizes to the same
device as the lookup input — it matches only in the
canonicalized-stored-path pass. -/
def fsPathC3 : MntFs := ⟨some (("/dev/other").data), none, none, none, none, 0⟩

/-- A tag-form entry (`LABEL=root`) whose tag the cache attributes to
the lookup input's device — it matches only in the resolved-tag pass. -/
def fsTagC3 : MntFs := ⟨some (("LABEL=root").data), some (("LABEL").data),
  some (("root").data), none, none, 0⟩

def tabC3 : MntTab := ⟨[fsPathC3, fsTagC3], some cacheC3⟩

/-- Claim C3 counterexample: in a table holding one entry that matches
only by canonicalized stored path and one that matches only by resolved
tag, the lookup returns the resolved-tag entry — not the
canonicalized-stored-path entry the claim's pass order predicts. -/
theorem C3_srcpath_counterexample :
    mnt_tab_find_srcpath tabC3 (("/dev/x").data) .forward = some fsTagC3 ∧
    canonSrcScan cacheC3 (("/dev/sda1").data) fsPathC3 = true ∧
    fsTagC3 ≠ fsPathC3 := by
  refine ⟨by decide, by decide, by decide⟩

/-- Claim C10: in `mnt_tab_find_target`'s third pass
(canonicalized input versus canonicalized stored target) an entry is
compared only when it carries the `MNT_FS_SWAP` flag and its target is
not exactly "/"; for a table with no swap-flagged entry, the lookup
result is exactly what the first two passes produce. -/
theorem C10_find_target_swap_only (tb : MntTab) (path : List Char) (d : MntIterDir)
    (hswap : ∀ fs ∈ tb.ents, fs.flags &&& MNT_FS_SWAP = 0) :
    mnt_tab_find_target tb path d =
      (match (iterOrder tb d).find? (fun fs => mnt_fs_streq_target fs (some path)) with
       | some fs => some fs
       | none =>
         match tb.cache with
         | none => none
         | some c =>
           match c.resolvePath path with
           | none => none
           | some cn =>
             (iterOrder tb d).find? (fun fs => mnt_fs_streq_target fs (some cn))) := by
  have hmem : ∀ fs ∈ iterOrder tb d, fs.flags &&& MNT_FS_SWAP = 0 := by
    intro fs hfs
    cases d with
    | forward => exact hswap fs hfs
    | backward => exact hswap fs (List.mem_reverse.mp hfs)
  simp only [mnt_tab_find_target]
  cases h1 : (iterOrder tb d).find? (fun fs => mnt_fs_streq_target fs (some path)) with
  | some fs => rfl
  | none =>
    dsimp only
    cases hc : tb.cache with
    | none => rfl
    | some c =>
      dsimp only
      cases hr : c.resolvePath path with
      | none => rfl
      | some cn =>
        dsimp only
        cases h2 : (iterOrder tb d).find? (fun fs => mnt_fs_streq_target fs (some cn)) with
        | some fs => rfl
        | none =>
          dsimp only
          exact List.find?_eq_none.mpr (fun fs hfs => by
            cases ht : fs.target with
            | none => simp [ht]
            | some tgt => simp [ht, hmem fs hfs])

/-- Witness for the C10 theorem at a concrete one-entry cacheless
table. -/
theorem C10_find_target_swap_only_witness :
    mnt_tab_find_target ⟨[⟨none, none, none, some (("/mnt").data), none, 0⟩], none⟩
        (("/mnt").data) .forward =
      some ⟨none, none, none, some (("/mnt").data), none, 0⟩ := by
  have h := C10_find_target_swap_only
    ⟨[⟨none, none, none, some (("/mnt").data), none, 0⟩], none⟩
    (("/mnt").data) .forward (by decide)
  revert h
  decide

/-! ## Table parser stream (`tab_parse.c`, C8)

A stream is modelled as the list of per-line outcomes of
`mnt_tab_parse_next` on its non-blank, non-comment lines: a line either
parses into an entry or fails, in which case the partially filled entry
it would leave behind is carried by the constructor.  The model assumes
newline-terminated input, so `feof` is false at the moment any parse
error is handled (the C only sees `feof` true at an error for a final
line with no terminating newline). -/

inductive LineIn where
  | ok (fs : MntFs) : LineIn
  | bad (part : MntFs) : LineIn
deriving DecidableEq, Repr

inductive ParseStreamRes where
  | ok (ents : List MntFs) : ParseStreamRes
  | error (rc : Int) : ParseStreamRes
deriving DecidableEq, Repr

/-- Shallow embedding of `mnt_tab_parse_stream` (tab_parse.c:288)
together with the error-callback dispatch of `mnt_tab_parse_next`
(tab_parse.c:269-278): a failed line yields `errcb(line)` when a
callback is installed and 1 otherwise; rc 0 keeps (adds) the partial
entry, rc 1 frees it and continues, and any other rc — positive or
negative — aborts the parse returning that rc.  Reading past the last
line makes `fgets` fail with `feof` set, which the stream loop turns
into overall success. -/
def mnt_tab_parse_stream (errcb : Option (Nat → Int)) :
    List LineIn → Nat → List MntFs → ParseStreamRes
  | [], _, acc => .ok acc
  | l :: rest, nlines, acc =>
    let n := nlines + 1
    match l with
    | .ok fs => mnt_tab_parse_stream errcb rest n (acc ++ [fs])
    | .bad part =>
      let rc : Int := match errcb with
        | some cb => cb n
        | none => 1
      if rc = 0 then mnt_tab_parse_stream errcb rest n (acc ++ [part])
      else if rc = 1 then mnt_tab_parse_stream errcb rest n acc
      else .error rc

/-- Claim C8 (amended): on a line parse failure, no callback and a
callback returning exactly 1 skip the line (the partial entry is
dropped) and continue; a callback returning 0 keeps the partial entry
as if the line had parsed; *any* other return value — negative as the
claim says, but also any positive value other than 1 — aborts the whole
parse with that value. -/
theorem C8_parse_stream_errcb :
    (∀ (rest : List LineIn) (n : Nat) (acc : List MntFs) (part : MntFs),
      mnt_tab_parse_stream none (.bad part :: rest) n acc =
        mnt_tab_parse_stream none rest (n + 1) acc) ∧
    (∀ (cb : Nat → Int) (rest : List LineIn) (n : Nat) (acc : List MntFs)
        (part : MntFs), cb (n + 1) = 0 →
      mnt_tab_parse_stream (some cb) (.bad part :: rest) n acc =
        mnt_tab_parse_stream (some cb) rest (n + 1) (acc ++ [part])) ∧
    (∀ (cb : Nat → Int) (rest : List LineIn) (n : Nat) (acc : List MntFs)
        (part : MntFs), cb (n + 1) = 1 →
      mnt_tab_parse_stream (some cb) (.bad part :: rest) n acc =
        mnt_tab_parse_stream (some cb) rest (n + 1) acc) ∧
    (∀ (cb : Nat → Int) (rest : List LineIn) (n : Nat) (acc : List MntFs)
        (part : MntFs), cb (n + 1) ≠ 0 → cb (n + 1) ≠ 1 →
      mnt_tab_parse_stream (some cb) (.bad part :: rest) n acc =
        .error (cb (n + 1))) := by
  refine ⟨?_, ?_, ?_, ?_⟩
  · intro rest n acc part
    simp [mnt_tab_parse_stream]
  · intro cb rest n acc part h0
    simp [mnt_tab_parse_stream, h0]
  · intro cb rest n acc part h1
    simp only [mnt_tab_parse_stream, h1]
    norm_num
  · intro cb rest n acc part h0 h1
    simp only [mnt_tab_parse_stream]
    rw [if_neg h0, if_neg h1]

/-- Claim C8 counterexample: a callback returning the positive value 2
does not skip the line — the parse aborts with 2. -/
theorem C8_parse_stream_counterexample :
    mnt_tab_parse_stream (some (fun _ => (2 : Int)))
        [.bad ⟨none, none, none, none, none, 0⟩] 0 [] = .error 2 ∧
    (ParseStreamRes.error 2 ≠ .ok []) := by
  refine ⟨by decide, by decide⟩

/-- Witness for the amended C8 theorem: a callback returning -5 aborts
the parse with -5. -/
theorem C8_parse_stream_errcb_witness :
    mnt_tab_parse_stream (some (fun _ => (-5 : Int)))
        [.bad ⟨none, none, none, none, none, 0⟩] 0 [] = .error (-5) := by
  have h := C8_parse_stream_errcb.2.2.2 (fun _ => (-5 : Int)) [] 0 []
    ⟨none, none, none, none, none, 0⟩ (by decide) (by decide)
  revert h
  decide

/-! ## mtab hard-link lock (`lock.c`, C9)

`lock_mtab` is driven by its environment: the monotonic clock, the
results of `link`/`open`/`fcntl` and the other process's behaviour.
One loop iteration's environment is a `LockIter`; the loop is modelled
over the (finite) list of iterations the run actually performs, `none`
meaning the schedule ran out with the loop still retrying.  Times are
monotonic seconds. -/

def EEXIST : Int := 17
def ENOENT : Int := 2
def ETIMEDOUT : Int := 110

/-- lock.c:400 -/
def MOUNTLOCK_MAXTIME : Int := 30
/-- lock.c:403 (microseconds) -/
def MOUNTLOCK_WAITTIME : Int := 5000
/-- lock.c:483: `waittime.tv_nsec = 1000 * MOUNTLOCK_WAITTIME` — the
retry sleep in nanoseconds. -/
def mountlockWaitNsec : Int := 1000 * MOUNTLOCK_WAITTIME

inductive FcntlRes where
  | ok : FcntlRes
  | eintr : FcntlRes
  | err (e : Int) : FcntlRes
deriving DecidableEq, Repr

/-- Shallow embedding of `mnt_wait_mtab_lock` (lock.c:319): immediate
timeout (1) when the monotonic clock has reached `maxtime`, else the
alarm-bounded `F_SETLKW`: success 0, `EINTR` (the alarm fired) 1, any
other failure `-errno`. -/
def mnt_wait_mtab_lock (nowSec maxtime : Int) (fcntlRes : FcntlRes) : Int :=
  if maxtime ≤ nowSec then 1
  else
    match fcntlRes with
    | .ok => 0
    | .eintr => 1
    | .err e => -e

structure LockIter where
  linkOk : Bool
  linkErrno : Int
  openOk : Bool
  openErrno : Int
  nowOpen : Int
  waitNow : Int
  waitFcntl : FcntlRes
deriving DecidableEq, Repr

/-- The `while (!ml->locked)` loop of `lock_mtab` (lock.c:485-545).
Per iteration: `link` succeeding means we own the link and, after a
successful `open`, the iteration breaks with success (the `F_SETLK`
claim is attempted but its failure is ignored); a `link` failure other
than `EEXIST` aborts with `-errno`; an `open` failure retries while
`ENOENT` before the deadline, else aborts with `-errno`; otherwise the
contended path waits — timeout (1) aborts with `-ETIMEDOUT`, a negative
wait result aborts with it, and success/EINTR-free outcomes sleep 5 ms
and retry. -/
def lock_mtab_loop (maxtime : Int) : List LockIter → Option Int
  | [] => none
  | it :: rest =>
    if it.linkOk = false ∧ it.linkErrno ≠ EEXIST then some (-it.linkErrno)
    else if it.openOk = false then
      if it.openErrno = ENOENT ∧ it.nowOpen < maxtime then
        lock_mtab_loop maxtime rest
      else some (-it.openErrno)
    else if it.linkOk then some 0
    else
      let e := mnt_wait_mtab_lock it.waitNow maxtime it.waitFcntl
      if e = 1 then some (-ETIMEDOUT)
      else if e < 0 then some e
      else lock_mtab_loop maxtime rest

/-- Shallow embedding of `lock_mtab` (lock.c:435): create the link
file (failure aborts with `-errno`), record the deadline
`MOUNTLOCK_MAXTIME` seconds past the monotonic now, run the loop. -/
def lock_mtab (startSec : Int) (createOk : Bool) (createErrno : Int)
    (iters : List LockIter) : Option Int :=
  if createOk = false then some (-createErrno)
  else lock_mtab_loop (startSec + MOUNTLOCK_MAXTIME) iters

/-- Claim C9 (amended): the deadline is 30 monotonic seconds ahead, the
retry sleep is 5 ms, the `F_SETLKW` wait never blocks once the deadline
has been reached, and a contended iteration entered at or past the
deadline makes the lock fail with `-ETIMEDOUT`.  The original claim's
universal "deadline expiry without ownership fails with -ETIMEDOUT" is
too strong: the vanished-lock-file path (open fails `ENOENT` at or past
the deadline) fails with `-ENOENT` instead. -/
theorem C9_lock_timeout :
    MOUNTLOCK_MAXTIME = 30 ∧
    mountlockWaitNsec = 5000000 ∧
    (∀ (nowSec maxtime : Int) (f : FcntlRes), maxtime ≤ nowSec →
      mnt_wait_mtab_lock nowSec maxtime f = 1) ∧
    (∀ (startSec : Int) (it : LockIter) (rest : List LockIter),
      it.linkOk = false → it.linkErrno = EEXIST → it.openOk = true →
      startSec + MOUNTLOCK_MAXTIME ≤ it.waitNow →
      lock_mtab startSec true 0 (it :: rest) = some (-ETIMEDOUT)) := by
  refine ⟨rfl, rfl, ?_, ?_⟩
  · intro nowSec maxtime f h
    simp [mnt_wait_mtab_lock, h]
  · intro startSec it rest hlink heex hopen hnow
    have hwait : mnt_wait_mtab_lock it.waitNow (startSec + MOUNTLOCK_MAXTIME)
        it.waitFcntl = 1 := by
      simp [mnt_wait_mtab_lock, hnow]
    simp only [lock_mtab, Bool.true_eq_false, if_false, lock_mtab_loop,
      hlink, heex, hopen, hwait]
    norm_num

/-- Claim C9 counterexample: a contended iteration whose `open` fails
with `ENOENT` at monotonic second 31 — past the deadline 30 — fails
with `-ENOENT`, not `-ETIMEDOUT`, although ownership was never
established before the deadline expired. -/
theorem C9_lock_timeout_counterexample :
    lock_mtab 0 true 0 [⟨false, 17, false, 2, 31, 0, FcntlRes.ok⟩] = some (-2) ∧
    (some (-2 : Int) ≠ some (-110 : Int)) := by
  refine ⟨by decide, by decide⟩

/-- Witness for the amended C9 theorem: with the deadline at monotonic
second 30, a contended iteration waiting at second 35 fails with
`-ETIMEDOUT` (-110). -/
theorem C9_lock_timeout_witness :
    lock_mtab 0 true 0 [⟨false, 17, true, 0, 0, 35, FcntlRes.ok⟩] =
      some (-110) := by
  have h := C9_lock_timeout.2.2.2 0 ⟨false, 17, true, 0, 0, 35, FcntlRes.ok⟩ []
    (by decide) (by decide) (by decide) (by decide)
  revert h
  decide
